import Mathlib

/-!
Verification development for the `taskflow` task-runner library.

The definitions below are a shallow embedding of the Go sources:
`flow_runner.go` (the executor), `taskflow.go` (registration),
`params.go` (typed parameter accessors) and the buffered-output file
(`bufferedOutput` / `bufferedWriter`).  Pure functions of the source
become Lean functions; the executor's mutation of its `executed` map and
its output writer becomes explicit state passing on `ExecState`.

Modelling conventions, shared by all definitions:

* Machine integers are `Nat`/`Int` with explicit bounds where the source
  checks them.
* Byte slices are `List Nat`; writers are append-only logs of what was
  written, in order.
* Wall-clock durations (the `%.3fs` / `%.2fs` suffixes the runner prints)
  are not representable and are elided from the printed lines; only the
  textual part of each line that does not depend on real time is kept.
* The cooperative cancellation context (`ctx.Err()`) is modelled by an
  optional threshold `cancelAt : Option Nat` over a logical clock that
  counts completed task-body invocations: `ctx.Err() ≠ nil` at a moment
  when `t` bodies have completed iff `cancelAt = some k` with `k ≤ t`.
  This captures exactly the points at which `flowRunner.run` consults the
  context (immediately before and immediately after `runTask`).
* Go's unbounded recursion in `flowRunner.run` is given a fuel parameter;
  `none` marks fuel exhaustion.  For valid task graphs fuel
  `tasks.length + 1` is proved sufficient (`runT_isSome_of_valid`), so no
  behaviour is lost.
-/

namespace Taskflow

/-- Result of a task body as reported by the task-body runner collaborator.
Modelled from the spec: the single-task execution primitive is an external
collaborator whose result exposes `failed()` and `skipped()` (spec §6); a
body therefore either fails, skips, or passes. -/
inductive TaskStatus
  | pass
  | fail
  | skip
deriving DecidableEq, Repr

/-- Model of a task body (`Command` plus the behaviour of the task-body
runner on it): the status it reports and the lines it writes to its output
sink, in order.  Within one invocation a body runs at most once, so a fixed
status and output per task is fully general. -/
structure Body where
  result : TaskStatus
  output : List String
deriving DecidableEq, Repr

/-- Model of `Task` (spec §3; the struct's own file is not under `src/`,
but every field below is read by code that is): name, optional command,
the names of its registered dependencies (`Deps` is a slice of
`RegisteredTask`, which carries only a name), the names of its declared
parameters (`Parameters`; `printUsage` reads `param.Name()`), and the
description shown by `printUsage`. -/
structure Task where
  name : String
  command : Option Body
  dependencies : List String
  parameters : List String
  description : String
deriving DecidableEq, Repr

/-- `CodePass` (taskflow.go). -/
def CodePass : Nat := 0

/-- `CodeFailure` (taskflow.go). -/
def CodeFailure : Nat := 1

/-- `CodeInvalidArgs` (taskflow.go). -/
def CodeInvalidArgs : Nat := 2

/-- The Go zero value `Task{}`, produced by `f.tasks[name]` when `name` is
not registered. -/
def zeroTask : Task := ⟨"", none, [], [], ""⟩

/-- Model of the registry map lookup `f.tasks[name]`.  The registry is kept
as a list in registration order; a map lookup returns the unique entry with
the given name (first match; registration prevents duplicates) or the zero
value. -/
def findTask (ts : List Task) (name : String) : Task :=
  (ts.find? (fun t => t.name == name)).getD zeroTask

/-- Mutable state of one `runTasks` invocation: the shared
`executed map[string]bool` (as the list of names marked true, in marking
order), the sequence of task-body invocations (names, in order; this is
the observable "the body of X was invoked" trace), and the lines written
to `f.output`, in order. -/
structure ExecState where
  executed : List String
  trace : List String
  output : List String
deriving DecidableEq, Repr

/-- The two error values `flowRunner.run` can return: a `ctx.Err()`
cancellation error, or `errors.New("task failed")`. -/
inductive RunErr
  | cancelled
  | taskFailed
deriving DecidableEq, Repr

/-- The error text printed by `runTasks` (go: `%v` on the error; the
elapsed-time suffix is elided, see the module docstring). -/
def errMsg : RunErr → String
  | .cancelled => "context canceled"
  | .taskFailed => "task failed"

/-- Whether `ctx.Err()` is non-nil once `t` task bodies have completed,
under the cancellation model described in the module docstring. -/
def ctxFired : Option Nat → Nat → Bool
  | none, _ => false
  | some k, t => decide (k ≤ t)

/-- Status word printed in the end-of-task marker (flow_runner.go
`runTask`). -/
def statusText : TaskStatus → String
  | .pass => "PASS"
  | .fail => "FAIL"
  | .skip => "SKIP"

/-- The start-of-task marker line `===== TASK  <name>`. -/
def startLine (name : String) : String := "===== TASK  " ++ name

/-- The end-of-task marker line `----- <STATUS>: <name>` (duration suffix
elided). -/
def endLine (st : TaskStatus) (name : String) : String :=
  "----- " ++ statusText st ++ ": " ++ name

/-- Model of `flowRunner.runTask`: returns `!failed` and the lines that
reach the real destination `f.output`.  Mirrors the source: a task with no
command passes immediately writing nothing; otherwise the start marker, the
body's output and the end marker are written to `w`, where `w` is a fresh
`strings.Builder` when the verbose switch is off and the real output
otherwise; finally, if `w` is the builder and the body failed, the whole
builder content is copied to the real output. -/
def runTask (verbose : Bool) (task : Task) : Bool × List String :=
  match task.command with
  | none => (true, [])
  | some body =>
    let buffered := !verbose
    let written := startLine task.name :: (body.output ++ [endLine body.result task.name])
    let direct : List String := if buffered then [] else written
    let failed : Bool := body.result == .fail
    let replayed : List String := if buffered && failed then written else []
    (!failed, direct ++ replayed)

/-- The dependency loop of `flowRunner.run`, parameterized by the
recursive call: run each name in order, stopping at the first error. -/
def depsLoop (f : String → ExecState → Option (ExecState × Option RunErr)) :
    List String → ExecState → Option (ExecState × Option RunErr)
  | [], s => some (s, none)
  | n :: rest, s =>
    match f n s with
    | none => none
    | some (s', some e) => some (s', some e)
    | some (s', none) => depsLoop f rest s'

/-- Model of `flowRunner.run` (flow_runner.go lines 117–139): look the task
up, short-circuit if already executed, run the dependencies first, check
the context, run the task, check the context again, report failure, and
only then mark the task executed.  Errors carry the state reached so far
(the Go code mutates `executed` and `f.output` in place, so partial effects
survive an error).  `none` is fuel exhaustion (see module docstring). -/
def runT (ts : List Task) (verbose : Bool) (cancelAt : Option Nat) :
    Nat → String → ExecState → Option (ExecState × Option RunErr)
  | 0, _, _ => none
  | Nat.succ fuel, name, s =>
    let task := findTask ts name
    if name ∈ s.executed then some (s, none)
    else
      match depsLoop (runT ts verbose cancelAt fuel) task.dependencies s with
      | none => none
      | some (s1, some e) => some (s1, some e)
      | some (s1, none) =>
        if ctxFired cancelAt s1.trace.length then some (s1, some .cancelled)
        else
          let r := runTask verbose task
          let s2 : ExecState :=
            { executed := s1.executed
              trace := s1.trace ++ (if task.command.isSome then [name] else [])
              output := s1.output ++ r.2 }
          if ctxFired cancelAt s2.trace.length then some (s2, some .cancelled)
          else if r.1 = false then some (s2, some .taskFailed)
          else some ({ s2 with executed := s2.executed ++ [name] }, none)

/-- The dependency loop at a given fuel level (each dependency is run with
the same remaining fuel, as in the mutual recursion of the source). -/
def runList (ts : List Task) (verbose : Bool) (cancelAt : Option Nat) (fuel : Nat) :
    List String → ExecState → Option (ExecState × Option RunErr) :=
  depsLoop (runT ts verbose cancelAt fuel)

/-- Model of `flowRunner.runTasks` (flow_runner.go lines 104–115): run each
requested task, stopping at the first error; print the error line or the
`ok` line; return the status code. -/
def runTasksLoop (ts : List Task) (verbose : Bool) (cancelAt : Option Nat) (fuel : Nat) :
    List String → ExecState → Option (Nat × ExecState)
  | [], s => some (CodePass, { s with output := s.output ++ ["ok"] })
  | n :: rest, s =>
    match runT ts verbose cancelAt fuel n s with
    | none => none
    | some (s', some e) => some (CodeFailure, { s' with output := s'.output ++ [errMsg e] })
    | some (s', none) => runTasksLoop ts verbose cancelAt fuel rest s'

/-- Fresh state at the start of `runTasks`: empty `executed` map, nothing
invoked, nothing printed. -/
def initState : ExecState := ⟨[], [], []⟩

/-- `runTasks` from a fresh state, with fuel `ts.length + 1` (proved
sufficient for valid graphs). -/
def runFlow (ts : List Task) (verbose : Bool) (cancelAt : Option Nat)
    (requests : List String) : Option (Nat × ExecState) :=
  runTasksLoop ts verbose cancelAt (ts.length + 1) requests initState

/-- Total wrapper around `runFlow`; for valid graphs the default is never
used (`runFlow_isSome_of_valid`). -/
def flowResult (ts : List Task) (verbose : Bool) (cancelAt : Option Nat)
    (requests : List String) : Nat × ExecState :=
  (runFlow ts verbose cancelAt requests).getD (CodeFailure, initState)

/-- Validity of a registration sequence, with `seen` the names registered
so far: no duplicate names and every listed dependency already
registered.  This is exactly what `Taskflow.Register` enforces. -/
def validAcc : List String → List Task → Bool
  | _, [] => true
  | seen, t :: rest =>
    !(seen.contains t.name) && t.dependencies.all (fun d => seen.contains d)
      && validAcc (t.name :: seen) rest

/-- A valid task graph: every dependency registered before the task that
lists it, and no duplicate names. -/
def validGraph (ts : List Task) : Bool := validAcc [] ts

/-- Transitive dependency closure of a list of requested names: the
requests themselves and, recursively, the dependencies of every member. -/
inductive Reachable (ts : List Task) (roots : List String) : String → Prop
  | root {n} : n ∈ roots → Reachable ts roots n
  | dep {m d} : Reachable ts roots m → d ∈ (findTask ts m).dependencies →
      Reachable ts roots d

/-- `DependsOn ts m n`: task `m` depends on task `n`, directly or
transitively. -/
inductive DependsOn (ts : List Task) : String → String → Prop
  | direct {m d} : d ∈ (findTask ts m).dependencies → DependsOn ts m d
  | trans {m x d} : DependsOn ts m x → d ∈ (findTask ts x).dependencies →
      DependsOn ts m d

/-- `a` occurs strictly before `b` in the list `l`. -/
def Before (l : List String) (a b : String) : Prop :=
  ∃ l1 l2 l3, l = l1 ++ a :: (l2 ++ b :: l3)

/-! ## Buffered output (`bufferedOutput` / `bufferedWriter`) -/

/-- Model of `bufferedEntry`: the stream tag (`primary`) and the copied
payload bytes. -/
structure bufferedEntry where
  primary : Bool
  data : List Nat
deriving DecidableEq, Repr

/-- Model of `bufferedOutput`: the mutex-ordered append-only entry log is
its sole state.  The mutex totally orders appends, so the buffer's content
is exactly a sequence of entries. -/
structure bufferedOutput where
  entries : List bufferedEntry
deriving DecidableEq, Repr

/-- Model of a destination `Output` (a `Primary`/`Message` writer pair):
the interleaved record of the `Write` calls the pair received, in order,
tagged with which of the two writers received each payload
(`primary = true` for the `Primary` writer). -/
structure OutputLog where
  writes : List bufferedEntry
deriving DecidableEq, Repr

/-- Model of `bufferedWriter.Write`: copy the payload into a new entry,
append it under the mutex, and report `len(p)` written. -/
def bufferedWriterWrite (buffer : bufferedOutput) (primary : Bool) (p : List Nat) :
    bufferedOutput × Nat :=
  (⟨buffer.entries ++ [⟨primary, p⟩]⟩, p.length)

/-- One iteration of the `WriteTo` loop: route the entry to the
destination's `Primary` writer when `entry.primary`, else to its
`Message` writer. -/
def writeEntryTo (dest : OutputLog) (e : bufferedEntry) : OutputLog :=
  if e.primary then ⟨dest.writes ++ [⟨true, e.data⟩]⟩
  else ⟨dest.writes ++ [⟨false, e.data⟩]⟩

/-- Model of `bufferedOutput.WriteTo`: replay every entry, in order, to the
destination; the buffer itself is only read, never reassigned, so it is
returned unchanged alongside the destination. -/
def bufferedOutputWriteTo (buffer : bufferedOutput) (dest : OutputLog) :
    bufferedOutput × OutputLog :=
  (⟨buffer.entries⟩, buffer.entries.foldl writeEntryTo dest)

/-- A sequence of `Write` calls against the buffer's `Output()` pair, in
mutex order: each element is (stream used, payload). -/
def writeAll (buffer : bufferedOutput) (ws : List (Bool × List Nat)) : bufferedOutput :=
  ws.foldl (fun b w => (bufferedWriterWrite b w.1 w.2).1) buffer

/-! ## Registration (`Taskflow.Register`) -/

/-- Model of `RegisteredTask`: an opaque handle carrying only the task
name. -/
structure RegisteredTask where
  name : String
deriving DecidableEq, Repr

/-- Model of `Taskflow.isRegistered`. -/
def isRegistered (tasks : List Task) (name : String) : Bool :=
  (tasks.find? (fun t => t.name == name)).isSome

/-- Model of `Taskflow.Register` (taskflow.go lines 116–132): validate the
name, the name's uniqueness and every dependency, in that order; only on
success store the task.  The resulting registry is returned in both cases
so that "the mapping is unchanged on error" is a statement, not a
modelling artifact. -/
def register (tasks : List Task) (t : Task) : Except String RegisteredTask × List Task :=
  if t.name = "" then (.error "task name cannot be empty", tasks)
  else if isRegistered tasks t.name then
    (.error (t.name ++ " task was already registered"), tasks)
  else
    match t.dependencies.find? (fun d => !(isRegistered tasks d)) with
    | some d => (.error ("invalid dependency " ++ d), tasks)
    | none => (.ok ⟨t.name⟩, tasks ++ [t])

/-! ## Typed parameters (`params.go`)

`Params` is `map[string]string`; a Go map read returns the zero value `""`
for an absent key.  The four accessors check `v == ""` first and return the
`ErrParamNotSet` sentinel, and otherwise hand `v` to a standard-library
parser whose errors are `convError` values, a different constructor from
the sentinel (modelling that `*strconv.NumError`/`time`'s errors are
distinct values from `ErrParamNotSet`).

The parsers below model the Go standard library (external to this
repository): `strconv.ParseInt(v, 0, 64)`, `strconv.ParseBool`,
`strconv.ParseFloat(v, 64)` and `time.ParseDuration`.  Numeric values are
exact (`Int`/`ℚ`); `±Inf`/`NaN` results and the float parsers' digit
separator underscores as well as `ParseDuration`'s int64-overflow checks
are not modelled — no claim depends on a parsed numeric value, only on the
error classification. -/

/-- The error values a parameter read can produce: the distinguished
`ErrParamNotSet` sentinel, or a conversion error. -/
inductive ParamError
  | notSet
  | convError (msg : String)
deriving DecidableEq, Repr

/-- `Params` is `map[string]string`, modelled as an association list. -/
abbrev Params := List (String × String)

/-- The Go map read `p[key]` with its zero-value default `""`. -/
def getParam (p : Params) (key : String) : String :=
  ((p.find? (fun kv => kv.1 == key)).map (fun kv => kv.2)).getD ""

/-- Map update `p[key] = v` (last write wins), modelled by shadowing: the
lookup takes the first binding, so consing the new binding realises the
map-update semantics. -/
def setParam (p : Params) (key v : String) : Params := (key, v) :: p

/-- Map deletion `delete(p, key)`. -/
def eraseParam (p : Params) (key : String) : Params :=
  p.filter (fun kv => kv.1 != key)

/-- Go's `lower(c) = c | ('x' - 'X')`. -/
def lowerCh (c : Char) : Char := Char.ofNat (c.toNat ||| 32)

/-- Go `strconv`'s digit reading: `'0'..'9'`, else any char whose
lowercased form is `≥ 'a'` counts as digit `lower(c) - 'a' + 10` (rejected
later when `≥ base`), else a syntax error. -/
def digitValGo (c : Char) : Option Nat :=
  if '0' ≤ c ∧ c ≤ '9' then some (c.toNat - '0'.toNat)
  else if 'a' ≤ lowerCh c then some ((lowerCh c).toNat - 'a'.toNat + 10)
  else none

/-- The scan loop of Go `strconv`'s `underscoreOK`, with `saw` the
last-seen character class (`'^'` start, `'0'` digit or base prefix,
`'_'` underscore, `'!'` other). -/
def underscoreOKLoop (hex : Bool) : List Char → Char → Bool
  | [], saw => saw != '_'
  | c :: rest, saw =>
    if ('0' ≤ c ∧ c ≤ '9') ∨ (hex ∧ 'a' ≤ lowerCh c ∧ lowerCh c ≤ 'f') then
      underscoreOKLoop hex rest '0'
    else if c = '_' then
      (if saw = '0' then underscoreOKLoop hex rest '_' else false)
    else if saw = '_' then false
    else underscoreOKLoop hex rest '!'

/-- Model of Go `strconv.underscoreOK`: underscores may appear only
between digits or between a base prefix and a digit. -/
def underscoreOK (s : List Char) : Bool :=
  let s1 := match s with
    | c :: r => if c = '-' ∨ c = '+' then r else s
    | [] => s
  match s1 with
  | a :: b :: r =>
    if a = '0' ∧ (lowerCh b = 'b' ∨ lowerCh b = 'o' ∨ lowerCh b = 'x') then
      underscoreOKLoop (lowerCh b = 'x') r '0'
    else underscoreOKLoop false s1 '^'
  | _ => underscoreOKLoop false s1 '^'

/-- `1<<64 - 1`, the `maxVal` of `ParseUint` at bit size 64. -/
def maxUint64 : Nat := 2 ^ 64 - 1

/-- Outcome of the digit-accumulation loop of `ParseUint`. -/
inductive UintRes
  | ok (n : Nat)
  | errSyn
  | errRange
deriving DecidableEq, Repr

/-- The digit-accumulation loop of Go `strconv.ParseUint`: skip
underscores (base 0), convert each digit, reject digits `≥ base`, and
reject accumulations past `maxVal` (Go's cutoff/wrap-around checks,
expressed exactly over `Nat`).  Also reports whether underscores were
seen. -/
def parseUintDigits (base : Nat) : List Char → Nat → Bool → UintRes × Bool
  | [], n, us => (.ok n, us)
  | c :: rest, n, us =>
    if c = '_' then parseUintDigits base rest n true
    else
      match digitValGo c with
      | none => (.errSyn, us)
      | some d =>
        if base ≤ d then (.errSyn, us)
        else if maxUint64 < n * base + d then (.errRange, us)
        else parseUintDigits base rest (n * base + d) us

/-- Model of Go `strconv.ParseUint(s, 0, 64)` (sign already stripped by
`ParseInt`): detect the base prefix, accumulate digits, and validate
underscore placement.  Returns the Go result pair (value, error text). -/
def parseUint0 (s : List Char) : Nat × Option String :=
  if s = [] then (0, some "invalid syntax")
  else
    let pr : Nat × List Char :=
      match s with
      | '0' :: b :: rest =>
        if lowerCh b = 'b' ∧ 3 ≤ s.length then (2, rest)
        else if lowerCh b = 'o' ∧ 3 ≤ s.length then (8, rest)
        else if lowerCh b = 'x' ∧ 3 ≤ s.length then (16, rest)
        else (8, b :: rest)
      | '0' :: rest => (8, rest)
      | _ => (10, s)
    match parseUintDigits pr.1 pr.2 0 false with
    | (.errSyn, _) => (0, some "invalid syntax")
    | (.errRange, _) => (maxUint64, some "value out of range")
    | (.ok n, us) =>
      if us ∧ ¬underscoreOK s then (0, some "invalid syntax") else (n, none)

/-- Model of Go `strconv.ParseInt(s, 0, 64)`: strip the sign, parse the
magnitude with `ParseUint`, then apply the signed 64-bit range checks
(returning the clamped boundary value with a range error, as Go does). -/
def parseInt64 (str : String) : Int × Option String :=
  let s := str.data
  if s = [] then (0, some "invalid syntax")
  else
    let sg : Bool × List Char :=
      match s with
      | '+' :: r => (false, r)
      | '-' :: r => (true, r)
      | _ => (false, s)
    let neg := sg.1
    let pu := parseUint0 sg.2
    if pu.2 = some "invalid syntax" then (0, some "invalid syntax")
    else
      let un := pu.1
      let cutoff : Nat := 2 ^ 63
      if ¬neg ∧ cutoff ≤ un then ((cutoff : Int) - 1, some "value out of range")
      else if neg ∧ cutoff < un then (-(cutoff : Int), some "value out of range")
      else ((if neg then -(un : Int) else (un : Int)), none)

/-- Model of Go `strconv.ParseBool`: the canonical token set, anything
else a syntax error with value `false`. -/
def parseBool (s : String) : Bool × Option String :=
  if s = "1" ∨ s = "t" ∨ s = "T" ∨ s = "TRUE" ∨ s = "true" ∨ s = "True" then (true, none)
  else if s = "0" ∨ s = "f" ∨ s = "F" ∨ s = "FALSE" ∨ s = "false" ∨ s = "False" then
    (false, none)
  else (false, some "invalid syntax")

/-- Mantissa scan of Go's float reader: consume digits of the base and at
most one decimal point, tracking the accumulated mantissa, the number of
fractional digits, and whether any digit was seen. -/
def mantissaLoop (base : Nat) : List Char → Nat → Nat → Bool → Bool → Nat × Nat × Bool × List Char
  | [], m, fc, _, dig => (m, fc, dig, [])
  | c :: rest, m, fc, dot, dig =>
    if c = '.' ∧ ¬dot then mantissaLoop base rest m fc true dig
    else
      match digitValGo c with
      | some d =>
        if d < base then
          mantissaLoop base rest (m * base + d) (if dot then fc + 1 else fc) dot true
        else (m, fc, dig, c :: rest)
      | none => (m, fc, dig, c :: rest)

/-- Decimal exponent scan (`e`/`p` already consumed, sign already
stripped): consume decimal digits, tracking whether any was seen. -/
def expLoop : List Char → Nat → Bool → Nat × Bool × List Char
  | [], acc, saw => (acc, saw, [])
  | c :: rest, acc, saw =>
    if '0' ≤ c ∧ c ≤ '9' then expLoop rest (acc * 10 + (c.toNat - '0'.toNat)) true
    else (acc, saw, c :: rest)

/-- The optionally signed exponent of a float literal: returns the signed
exponent and the unconsumed rest, or `none` if no digit follows. -/
def readExp (s : List Char) : Option (Int × List Char) :=
  let sg : Bool × List Char :=
    match s with
    | '+' :: r => (false, r)
    | '-' :: r => (true, r)
    | _ => (false, s)
  match expLoop sg.2 0 false with
  | (_, false, _) => none
  | (acc, true, rest) => some ((if sg.1 then -(acc : Int) else (acc : Int)), rest)

/-- Go `strconv.ParseFloat`'s special cases: optionally signed
`inf`/`infinity` and unsigned `nan`, case-insensitively. -/
def specialFloat (s : List Char) : Bool :=
  let low := s.map lowerCh
  low = "inf".data ∨ low = "+inf".data ∨ low = "-inf".data ∨
    low = "infinity".data ∨ low = "+infinity".data ∨ low = "-infinity".data ∨
    low = "nan".data

/-- Model of Go `strconv.ParseFloat(s, 64)`: special cases, then an
optionally signed decimal (`digits[.digits][e±digits]`) or hexadecimal
(`0x digits[.digits] p±digits`, exponent mandatory) literal with at least
one mantissa digit and nothing trailing.  The value is the literal's exact
rational (`0` for the special cases); Go rounds it to the nearest
`float64`, which no claim depends on. -/
def parseFloat (str : String) : ℚ × Option String :=
  let s := str.data
  if s = [] then (0, some "invalid syntax")
  else if specialFloat s then (0, none)
  else
    let sg : Bool × List Char :=
      match s with
      | '+' :: r => (false, r)
      | '-' :: r => (true, r)
      | _ => (false, s)
    let neg := sg.1
    let body := sg.2
    let hex : Bool :=
      match body with
      | a :: b :: _ => a = '0' ∧ lowerCh b = 'x'
      | _ => false
    let mres :=
      if hex then mantissaLoop 16 (body.drop 2) 0 0 false false
      else mantissaLoop 10 body 0 0 false false
    let m := mres.1
    let fc := mres.2.1
    let sawDig := mres.2.2.1
    let rest := mres.2.2.2
    if ¬sawDig then (0, some "invalid syntax")
    else if hex then
      match rest with
      | p :: r =>
        if lowerCh p = 'p' then
          match readExp r with
          | some (e, []) =>
            let q : ℚ := (if neg then -(m : ℚ) else (m : ℚ)) * (2 : ℚ) ^ (e - 4 * (fc : Int))
            (q, none)
          | _ => (0, some "invalid syntax")
        else (0, some "invalid syntax")
      | [] => (0, some "invalid syntax")
    else
      match rest with
      | [] =>
        ((if neg then -(m : ℚ) else (m : ℚ)) * (10 : ℚ) ^ (-(fc : Int)), none)
      | e :: r =>
        if lowerCh e = 'e' then
          match readExp r with
          | some (ex, []) =>
            ((if neg then -(m : ℚ) else (m : ℚ)) * (10 : ℚ) ^ (ex - (fc : Int)), none)
          | _ => (0, some "invalid syntax")
        else (0, some "invalid syntax")

/-- The `unitMap` of Go `time.ParseDuration`, in nanoseconds. -/
def durationUnit (u : String) : Option Nat :=
  if u = "ns" then some 1
  else if u = "us" ∨ u = "µs" ∨ u = "μs" then some 1000
  else if u = "ms" then some 1000000
  else if u = "s" then some 1000000000
  else if u = "m" then some 60000000000
  else if u = "h" then some 3600000000000
  else none

/-- The `<digits>[.digits]<unit>` loop of Go `time.ParseDuration`,
accumulating exact nanoseconds.  The fuel is the remaining length (each
round consumes at least the unit, so `s.length` suffices). -/
def durLoop : Nat → List Char → ℚ → ℚ × Option String
  | _, [], acc => (acc, none)
  | 0, _ :: _, _ => (0, some "invalid duration")
  | fuel + 1, c :: cs, acc =>
    if ¬(c = '.' ∨ ('0' ≤ c ∧ c ≤ '9')) then (0, some "invalid duration")
    else
      let s := c :: cs
      let intDigits := s.takeWhile Char.isDigit
      let s2 := s.dropWhile Char.isDigit
      let v : Nat := intDigits.foldl (fun n d => n * 10 + (d.toNat - '0'.toNat)) 0
      let pre := intDigits ≠ []
      let fr : Nat × Nat × List Char × Bool :=
        match s2 with
        | '.' :: r =>
          let fracDigits := r.takeWhile Char.isDigit
          let r2 := r.dropWhile Char.isDigit
          (fracDigits.foldl (fun n d => n * 10 + (d.toNat - '0'.toNat)) 0,
            fracDigits.length, r2, fracDigits ≠ [])
        | _ => (0, 0, s2, false)
      let f := fr.1
      let scale := fr.2.1
      let s3 := fr.2.2.1
      let post := fr.2.2.2
      if ¬pre ∧ ¬post then (0, some "invalid duration")
      else
        let unitChars := s3.takeWhile (fun ch => ¬(ch = '.' ∨ ch.isDigit))
        let s4 := s3.dropWhile (fun ch => ¬(ch = '.' ∨ ch.isDigit))
        if unitChars = [] then (0, some "missing unit in duration")
        else
          match durationUnit (String.mk unitChars) with
          | none => (0, some "unknown unit in duration")
          | some unit =>
            durLoop fuel s4 (acc + (v : ℚ) * unit + (f : ℚ) / ((10 : ℚ) ^ scale) * unit)

/-- Model of Go `time.ParseDuration`: optional sign, the special literal
`"0"`, then a sequence of `<digits>[.digits]<unit>` groups.  The value is
the exact rational number of nanoseconds (Go truncates through int64/float
arithmetic, which no claim depends on). -/
def parseDuration (str : String) : ℚ × Option String :=
  let s := str.data
  let sg : Bool × List Char :=
    match s with
    | '+' :: r => (false, r)
    | '-' :: r => (true, r)
    | _ => (false, s)
  let neg := sg.1
  let s1 := sg.2
  if s1 = ['0'] then (0, none)
  else if s1 = [] then (0, some "invalid duration")
  else
    match durLoop s1.length s1 0 with
    | (q, none) => ((if neg then -q else q), none)
    | (_, some e) => (0, some e)

/-- Model of `Params.Int` (params.go): `""` is the not-set sentinel with
the zero value; otherwise `strconv.ParseInt(v, 0, strconv.IntSize)` with
`IntSize = 64`, whose error (if any) is a conversion error. -/
def Params.Int (p : Params) (key : String) : Int × Option ParamError :=
  let v := getParam p key
  if v = "" then (0, some .notSet)
  else
    let r := parseInt64 v
    (r.1, r.2.map ParamError.convError)

/-- Model of `Params.Bool` (params.go). -/
def Params.Bool (p : Params) (key : String) : Bool × Option ParamError :=
  let v := getParam p key
  if v = "" then (false, some .notSet)
  else
    let r := parseBool v
    (r.1, r.2.map ParamError.convError)

/-- Model of `Params.Float64` (params.go); the value is the literal's
exact rational, see `parseFloat`. -/
def Params.Float64 (p : Params) (key : String) : ℚ × Option ParamError :=
  let v := getParam p key
  if v = "" then (0, some .notSet)
  else
    let r := parseFloat v
    (r.1, r.2.map ParamError.convError)

/-- Model of `Params.Duration` (params.go); the value is in exact rational
nanoseconds, see `parseDuration`. -/
def Params.Duration (p : Params) (key : String) : ℚ × Option ParamError :=
  let v := getParam p key
  if v = "" then (0, some .notSet)
  else
    let r := parseDuration v
    (r.1, r.2.map ParamError.convError)

/-! ## Argument scanning and usage (`flowRunner.Run`/`printUsage`,
flow_runner.go lines 25–102 and 200–244)

`flowRunner.Run` builds the flag index `valuesByFlag` from `f.params`, and
`printUsage` renders a table over the same map.  The `parameter` struct
itself (its `ParameterInfo` with the `longFlag`/`shortFlag` derivation,
and the `Value` instances made by `newValue`) lives outside `src/`, so a
registered parameter is carried here as plain data: its name and usage
text, its two derived flag spellings (`shortFlag = ""` when absent), and
the fresh value's behaviour — `IsBool`, on which raw texts `Set` succeeds,
and its default `String()` rendering. -/

/-- One entry of `f.params`, flattened to the data the flow runner reads
from it (see the section docstring). -/
structure parameter where
  name : String
  usage : String
  longFlag : String
  shortFlag : String
  isBool : Bool
  setOk : String → Bool
  defaultText : String

/-- The behaviour of one registered flag spelling: `Value.IsBool` and the
success predicate of `Value.Set`. -/
structure FlagSpec where
  isBool : Bool
  setOk : String → Bool

/-- The index-building loop of `flowRunner.Run` (lines 26–36): each
parameter's value is registered under its long flag and, when non-empty,
its short flag.  Go fills a map while ranging over the `params` map; here
the bindings are prepended in list order, so the first match (the lookup
below) realises the map's last-write-wins assignment, with the list order
standing in for Go's unspecified map iteration order (no claim depends on
two parameters sharing a flag spelling). -/
def valuesByFlag (params : List parameter) : List (String × FlagSpec) :=
  params.foldl
    (fun acc p =>
      let acc1 := (p.longFlag, (⟨p.isBool, p.setOk⟩ : FlagSpec)) :: acc
      if 0 < p.shortFlag.length then (p.shortFlag, (⟨p.isBool, p.setOk⟩ : FlagSpec)) :: acc1
      else acc1)
    []

/-- String sort used for `sort.Strings`. -/
def sortStrings (l : List String) : List String :=
  l.mergeSort (fun a b => decide (a ≤ b))

/-- Model of `printUsage` (flow_runner.go lines 200–244): the usage
header, the flags table (one line per parameter, keys sorted), the tasks
table (one line per task with a non-empty description, keys sorted, with
the task's parameter names sorted and joined), and the default-task line.
The `text/tabwriter` column padding (standard library formatting) is not
modelled: each table line carries its raw tab-separated fields.  The
source sorts the map's key set and indexes the map per key; since keys
are unique this is rendered as sorting the entries by name. -/
def printUsage (params : List parameter) (ts : List Task) (defaultTask : String) :
    List String :=
  let flagLines :=
    (params.mergeSort (fun a b => decide (a.name ≤ b.name))).map
      (fun p => "  " ++ p.shortFlag ++ "\t" ++ p.longFlag ++ "\tDefault: "
        ++ p.defaultText ++ "\t" ++ p.usage)
  let taskLines :=
    (sortStrings ((ts.filter (fun t => t.description ≠ "")).map (fun t => t.name))).map
      (fun k =>
        let t := findTask ts k
        let ps := sortStrings t.parameters
        let paramsText := if 0 < ps.length then "; -" ++ String.intercalate " -" ps else ""
        "  " ++ t.name ++ "\t" ++ t.description ++ paramsText)
  ["Usage: [flag(s)] task(s)", "Flags:"] ++ flagLines ++ ["Tasks:"] ++ taskLines
    ++ (if defaultTask ≠ "" then ["Default task: " ++ defaultTask] else [])

/-- The mutable scan state of `flowRunner.Run`'s argument loop: the
single-slot pending value consumer installed by `handleNextArgFor`, the
task names collected so far, and whether usage was requested. -/
structure ScanState where
  pending : Option FlagSpec
  taskArgs : List String
  usageRequested : Bool

/-- The two ways the argument loop can fail: an unknown argument (which is
also printed), or a failing `Value.Set`. -/
inductive ScanErr
  | unknownArg (tok : String)
  | setFailed
deriving DecidableEq, Repr

/-- `strings.SplitN(arg, "=", 2)`: the part before the first `=`, and the
remainder (if any). -/
def splitEq (a : String) : String × Option String :=
  match a.splitOn "=" with
  | [] => (a, none)
  | [x] => (x, none)
  | x :: xs => (x, some (String.intercalate "=" xs))

/-- Lookup in `valuesByFlag`. -/
def lookupFlag (flags : List (String × FlagSpec)) (k : String) : Option FlagSpec :=
  (flags.find? (fun kv => kv.1 == k)).map (fun kv => kv.2)

/-- One step of `argHandler` (flow_runner.go lines 41–76): a pending value
consumer eats any token; otherwise a registered task name is collected; a
registered flag is set from `flag=value`, set to `""` when boolean and
bare, or installs the pending consumer; help tokens mark usage; anything
else is the unknown-argument error. -/
def stepArg (taskNames : List String) (flags : List (String × FlagSpec))
    (st : ScanState) (arg : String) : Except ScanErr ScanState :=
  match st.pending with
  | some spec =>
    if spec.setOk arg then .ok { st with pending := none } else .error .setFailed
  | none =>
    if taskNames.contains arg then .ok { st with taskArgs := st.taskArgs ++ [arg] }
    else
      match lookupFlag flags (splitEq arg).1 with
      | some spec =>
        match (splitEq arg).2 with
        | some v => if spec.setOk v then .ok st else .error .setFailed
        | none =>
          if spec.isBool then (if spec.setOk "" then .ok st else .error .setFailed)
          else .ok { st with pending := some spec }
      | none =>
        if arg == "-h" || arg == "--help" || arg == "help" then
          .ok { st with usageRequested := true }
        else .error (.unknownArg arg)

/-- The argument loop of `flowRunner.Run`: fold `argHandler` over the
arguments, stopping at the first error. -/
def scanArgs (taskNames : List String) (flags : List (String × FlagSpec))
    (args : List String) (st : ScanState) : Except ScanErr ScanState :=
  args.foldlM (stepArg taskNames flags) st

/-- The line `Run` prints for an unknown argument. -/
def unknownArgLine (tok : String) : String := "unknown argument: " ++ tok

/-- The observable outcome of `flowRunner.Run`: status code, output lines,
task-body invocations, and the executed set. -/
structure MainResult where
  code : Nat
  output : List String
  trace : List String
  executed : List String
deriving DecidableEq, Repr

/-- Model of `flowRunner.Run` (flow_runner.go lines 25–102): build the
flag index, scan the arguments (an unknown argument prints its line and
aborts with `CodeInvalidArgs`; a failing `Value.Set` aborts silently);
print usage on request and pass; substitute the default task; reject an
empty task list with the "no task provided" line and the usage text;
otherwise run the tasks. -/
def flowRunnerRun (ts : List Task) (params : List parameter) (verbose : Bool)
    (cancelAt : Option Nat) (defaultTask : String) (args : List String) : MainResult :=
  match scanArgs (ts.map (fun t => t.name)) (valuesByFlag params) args ⟨none, [], false⟩ with
  | .error (.unknownArg tok) => ⟨CodeInvalidArgs, [unknownArgLine tok], [], []⟩
  | .error .setFailed => ⟨CodeInvalidArgs, [], [], []⟩
  | .ok st =>
    if st.usageRequested then ⟨CodePass, printUsage params ts defaultTask, [], []⟩
    else
      let tasks1 := if st.taskArgs = [] ∧ defaultTask ≠ "" then [defaultTask] else st.taskArgs
      if tasks1 = [] then
        ⟨CodeInvalidArgs, "no task provided" :: printUsage params ts defaultTask, [], []⟩
      else
        match runTasksLoop ts verbose cancelAt (ts.length + 1) tasks1 initState with
        | none => ⟨CodeFailure, [], [], []⟩
        | some (code, s) => ⟨code, s.output, s.trace, s.executed⟩

/-! ## Lemmas: buffered output -/

theorem writeEntryTo_eq (dest : OutputLog) (e : bufferedEntry) :
    writeEntryTo dest e = ⟨dest.writes ++ [e]⟩ := by
  cases e with
  | mk primary data => cases primary <;> simp [writeEntryTo]

theorem foldl_writeEntryTo (l : List bufferedEntry) (dest : OutputLog) :
    l.foldl writeEntryTo dest = ⟨dest.writes ++ l⟩ := by
  induction l generalizing dest with
  | nil => simp
  | cons e rest ih => simp [List.foldl_cons, writeEntryTo_eq, ih]

theorem writeAll_entries (ws : List (Bool × List Nat)) (b : bufferedOutput) :
    (writeAll b ws).entries = b.entries ++ ws.map (fun w => bufferedEntry.mk w.1 w.2) := by
  induction ws generalizing b with
  | nil => simp [writeAll]
  | cons w rest ih =>
    simp [writeAll, List.foldl_cons] at ih ⊢
    rw [ih]
    simp [bufferedWriterWrite]

/-- Claim C3: for every interleaved sequence of writes to the primary and
message writers, replaying the buffer to a destination reproduces exactly
the written payloads, in original append order, each routed to the
destination writer matching the stream it was written on; the replay
leaves the buffer unchanged, so a second replay reproduces the same
sequence again. -/
theorem bufferedOutput_roundtrip (ws : List (Bool × List Nat)) (dest : OutputLog) :
    (bufferedOutputWriteTo (writeAll ⟨[]⟩ ws) dest).1 = writeAll ⟨[]⟩ ws ∧
    (bufferedOutputWriteTo (writeAll ⟨[]⟩ ws) dest).2.writes
      = dest.writes ++ ws.map (fun w => bufferedEntry.mk w.1 w.2) ∧
    (bufferedOutputWriteTo (writeAll ⟨[]⟩ ws)
        (bufferedOutputWriteTo (writeAll ⟨[]⟩ ws) dest).2).2.writes
      = dest.writes ++ ws.map (fun w => bufferedEntry.mk w.1 w.2)
          ++ ws.map (fun w => bufferedEntry.mk w.1 w.2) := by
  refine ⟨rfl, ?_, ?_⟩
  · simp [bufferedOutputWriteTo, foldl_writeEntryTo, writeAll_entries]
  · simp [bufferedOutputWriteTo, foldl_writeEntryTo, writeAll_entries]

/-! ## Lemmas: registration -/

/-- Claim C5: `Register` returns an error (and no handle) exactly when the
name is empty, already registered, or some listed dependency is
unregistered; on error the registry is unchanged, and on success the task
is stored under its name and the returned handle carries that name. -/
theorem register_spec (tasks : List Task) (t : Task) :
    ((register tasks t).1.isOk = false ↔
      (t.name = "" ∨ isRegistered tasks t.name = true ∨
        ∃ d ∈ t.dependencies, isRegistered tasks d = false)) ∧
    ((register tasks t).1.isOk = false → (register tasks t).2 = tasks) ∧
    ((register tasks t).1.isOk = true →
      (register tasks t).1 = .ok ⟨t.name⟩ ∧ (register tasks t).2 = tasks ++ [t] ∧
      findTask (register tasks t).2 t.name = t) := by
  by_cases h1 : t.name = ""
  · simp [register, h1, Except.isOk, Except.toBool]
  · by_cases h2 : isRegistered tasks t.name
    · simp [register, h1, h2, Except.isOk, Except.toBool]
    · rcases hfind : t.dependencies.find? (fun d => !(isRegistered tasks d)) with _ | d
      · have hall := List.find?_eq_none.1 hfind
        have hdeps : ¬∃ d ∈ t.dependencies, isRegistered tasks d = false := by
          rintro ⟨d, hd, hreg⟩
          have := hall d hd
          simp [hreg] at this
        have hok : (register tasks t).1 = .ok ⟨t.name⟩ ∧ (register tasks t).2 = tasks ++ [t] := by
          simp [register, h1, h2, hfind]
        refine ⟨?_, ?_, ?_⟩
        · simp [hok.1, h1, h2, hdeps, Except.isOk, Except.toBool]
        · intro hko; rw [hok.1] at hko; simp [Except.isOk, Except.toBool] at hko
        · intro _
          refine ⟨hok.1, hok.2, ?_⟩
          rw [hok.2]
          unfold findTask
          rw [List.find?_append]
          have hnone : tasks.find? (fun x => x.name == t.name) = none := by
            by_contra hc
            have : (tasks.find? (fun x => x.name == t.name)).isSome = true := by
              cases hfx : tasks.find? (fun x => x.name == t.name) with
              | none => exact absurd hfx hc
              | some _ => rfl
            exact h2 this
          simp [hnone]
      · have hd := List.find?_some hfind
        have hmem := List.mem_of_find?_eq_some hfind
        simp only [Bool.not_eq_true'] at hd
        have hdeps : ∃ x ∈ t.dependencies, isRegistered tasks x = false := ⟨d, hmem, hd⟩
        have herr : (register tasks t).1 = .error ("invalid dependency " ++ d) ∧
            (register tasks t).2 = tasks := by
          simp [register, h1, h2, hfind]
        simp [herr.1, herr.2, h1, h2, hdeps, Except.isOk, Except.toBool]

/-! ## Lemmas: typed parameters -/

theorem getParam_setParam (p : Params) (key v : String) :
    getParam (setParam p key v) key = v := by
  simp [setParam, getParam, List.find?]

theorem getParam_eraseParam (p : Params) (key : String) :
    getParam (eraseParam p key) key = "" := by
  have hnone : (eraseParam p key).find? (fun kv => kv.1 == key) = none := by
    rw [List.find?_eq_none]
    intro kv hkv
    have := List.of_mem_filter hkv
    simpa using this
  simp [getParam, hnone]

/-- Claim C9: every typed accessor treats a parameter stored as the empty
string exactly like an absent parameter — setting a key to `""` and
erasing the key are indistinguishable, and both read back as the zero
value with the "not set" sentinel. -/
theorem params_empty_indistinguishable_from_unset (p : Params) (key : String) :
    Params.Int (setParam p key "") key = (0, some .notSet) ∧
    Params.Bool (setParam p key "") key = (false, some .notSet) ∧
    Params.Float64 (setParam p key "") key = (0, some .notSet) ∧
    Params.Duration (setParam p key "") key = (0, some .notSet) ∧
    Params.Int (setParam p key "") key = Params.Int (eraseParam p key) key ∧
    Params.Bool (setParam p key "") key = Params.Bool (eraseParam p key) key ∧
    Params.Float64 (setParam p key "") key = Params.Float64 (eraseParam p key) key ∧
    Params.Duration (setParam p key "") key = Params.Duration (eraseParam p key) key := by
  have hs := getParam_setParam p key ""
  have he := getParam_eraseParam p key
  simp [Params.Int, Params.Bool, Params.Float64, Params.Duration, hs, he]

/-- Claim C6: for every key, reading an unset parameter returns the
"not set" sentinel together with the zero value through every typed
accessor, and reading a parameter set to a literal the accessor cannot
parse returns a conversion error, a value distinct from the sentinel. -/
theorem params_notset_vs_conversion (p : Params) (key v : String)
    (hv : getParam p key = v) :
    (v = "" →
      Params.Int p key = (0, some .notSet) ∧
      Params.Bool p key = (false, some .notSet) ∧
      Params.Float64 p key = (0, some .notSet) ∧
      Params.Duration p key = (0, some .notSet)) ∧
    (v ≠ "" →
      (∀ e, (Params.Int p key).2 = some e → e ≠ .notSet ∧ ∃ m, e = .convError m) ∧
      (∀ e, (Params.Bool p key).2 = some e → e ≠ .notSet ∧ ∃ m, e = .convError m) ∧
      (∀ e, (Params.Float64 p key).2 = some e → e ≠ .notSet ∧ ∃ m, e = .convError m) ∧
      (∀ e, (Params.Duration p key).2 = some e → e ≠ .notSet ∧ ∃ m, e = .convError m)) := by
  constructor
  · intro hve
    rw [hve] at hv
    simp [Params.Int, Params.Bool, Params.Float64, Params.Duration, hv]
  · intro hne
    have hmap : ∀ (err : Option String) (e : ParamError),
        err.map ParamError.convError = some e →
        e ≠ .notSet ∧ ∃ m, e = .convError m := by
      intro err e h
      cases err with
      | none => simp at h
      | some m =>
        simp at h
        exact ⟨by simp [← h], m, h.symm⟩
    refine ⟨?_, ?_, ?_, ?_⟩ <;> intro e he
    · exact hmap (parseInt64 v).2 e (by simpa [Params.Int, hv, hne] using he)
    · exact hmap (parseBool v).2 e (by simpa [Params.Bool, hv, hne] using he)
    · exact hmap (parseFloat v).2 e (by simpa [Params.Float64, hv, hne] using he)
    · exact hmap (parseDuration v).2 e (by simpa [Params.Duration, hv, hne] using he)

/-- Concrete instance of `params_notset_vs_conversion`: the literal
`"abc"` yields a conversion error, and an unset key the sentinel, through
every accessor. -/
theorem params_notset_vs_conversion_witness :
    ((Params.Int [("k", "abc")] "k").2 = some (.convError "invalid syntax")) ∧
    ((Params.Bool [("k", "abc")] "k").2 = some (.convError "invalid syntax")) ∧
    ((Params.Float64 [("k", "abc")] "k").2 = some (.convError "invalid syntax")) ∧
    ((Params.Duration [("k", "abc")] "k").2 = some (.convError "invalid duration")) ∧
    (Params.Int [] "k" = (0, some .notSet)) ∧
    ((("abc" : String) = "" →
      Params.Int [("k", "abc")] "k" = (0, some .notSet) ∧
      Params.Bool [("k", "abc")] "k" = (false, some .notSet) ∧
      Params.Float64 [("k", "abc")] "k" = (0, some .notSet) ∧
      Params.Duration [("k", "abc")] "k" = (0, some .notSet)) ∧
    (("abc" : String) ≠ "" →
      (∀ e, (Params.Int [("k", "abc")] "k").2 = some e → e ≠ .notSet ∧ ∃ m, e = .convError m) ∧
      (∀ e, (Params.Bool [("k", "abc")] "k").2 = some e → e ≠ .notSet ∧ ∃ m, e = .convError m) ∧
      (∀ e, (Params.Float64 [("k", "abc")] "k").2 = some e → e ≠ .notSet ∧ ∃ m, e = .convError m) ∧
      (∀ e, (Params.Duration [("k", "abc")] "k").2 = some e →
        e ≠ .notSet ∧ ∃ m, e = .convError m))) :=
  ⟨by decide, by decide, by decide, by decide, by decide,
    params_notset_vs_conversion [("k", "abc")] "k" "abc" rfl⟩

/-! ## Lemmas: non-verbose buffering (`runTask`) -/

/-- Claim C4: with the verbose switch off, nothing a passing or skipping
body wrote reaches the real destination, while for a failing body the
entire written sequence — start-of-task marker, body output, end-of-task
marker — is forwarded in full. -/
theorem runTask_nonverbose_output (task : Task) (body : Body)
    (h : task.command = some body) :
    ((body.result = .pass ∨ body.result = .skip) → (runTask false task).2 = []) ∧
    (body.result = .fail →
      (runTask false task).2
        = startLine task.name :: (body.output ++ [endLine body.result task.name])) := by
  constructor
  · rintro (hres | hres) <;> simp [runTask, h, hres]
  · intro hres
    simp [runTask, h, hres]

/-- Instance of `runTask_nonverbose_output` at a concrete failing task and
a concrete passing task. -/
theorem runTask_nonverbose_output_witness :
    ((((⟨.fail, ["boom"]⟩ : Body).result = .pass ∨ (⟨.fail, ["boom"]⟩ : Body).result = .skip) →
      (runTask false ⟨"t", some ⟨.fail, ["boom"]⟩, [], [], ""⟩).2 = []) ∧
     ((⟨.fail, ["boom"]⟩ : Body).result = .fail →
      (runTask false ⟨"t", some ⟨.fail, ["boom"]⟩, [], [], ""⟩).2
        = startLine "t" :: (["boom"] ++ [endLine .fail "t"]))) ∧
    ((((⟨.pass, ["quiet"]⟩ : Body).result = .pass ∨ (⟨.pass, ["quiet"]⟩ : Body).result = .skip) →
      (runTask false ⟨"t", some ⟨.pass, ["quiet"]⟩, [], [], ""⟩).2 = []) ∧
     ((⟨.pass, ["quiet"]⟩ : Body).result = .fail →
      (runTask false ⟨"t", some ⟨.pass, ["quiet"]⟩, [], [], ""⟩).2
        = startLine "t" :: (["quiet"] ++ [endLine .pass "t"]))) :=
  ⟨runTask_nonverbose_output ⟨"t", some ⟨.fail, ["boom"]⟩, [], [], ""⟩ ⟨.fail, ["boom"]⟩ rfl,
    runTask_nonverbose_output ⟨"t", some ⟨.pass, ["quiet"]⟩, [], [], ""⟩ ⟨.pass, ["quiet"]⟩ rfl⟩

/-! ## Lemmas: argument scanning -/

theorem scanArgs_append (taskNames : List String) (flags : List (String × FlagSpec))
    (l1 l2 : List String) (st : ScanState) :
    scanArgs taskNames flags (l1 ++ l2) st
      = match scanArgs taskNames flags l1 st with
        | .ok st' => scanArgs taskNames flags l2 st'
        | .error e => .error e := by
  induction l1 generalizing st with
  | nil => simp [scanArgs, List.foldlM, pure, Except.pure]
  | cons a l1 ih =>
    simp only [List.cons_append, scanArgs, List.foldlM] at ih ⊢
    cases stepArg taskNames flags st a with
    | ok st1 => simpa [scanArgs] using ih st1
    | error e => rfl

theorem scanArgs_error_head (taskNames : List String) (flags : List (String × FlagSpec))
    (rest : List String) (st : ScanState) (tok : String) (e : ScanErr)
    (h : stepArg taskNames flags st tok = .error e) :
    scanArgs taskNames flags (tok :: rest) st = .error e := by
  simp only [scanArgs, List.foldlM, h]
  rfl

/-- Claim C7: an argument that is neither a registered task name, nor a
registered flag spelling (bare or `flag=value`), nor the value consumed by
a preceding non-boolean flag (the pending slot is empty), nor a help
token, makes `Run` print the unknown-argument line, stop scanning at that
token (the remaining arguments are irrelevant), return `CodeInvalidArgs`
(2), and execute no task body. -/
theorem run_unknown_argument (ts : List Task) (params : List parameter)
    (verbose : Bool) (cancelAt : Option Nat) (defaultTask : String)
    (pre rest : List String) (tok : String) (st : ScanState)
    (hpre : scanArgs (ts.map (fun t => t.name)) (valuesByFlag params) pre ⟨none, [], false⟩
      = .ok st)
    (hpend : st.pending = none)
    (htask : (ts.map (fun t => t.name)).contains tok = false)
    (hflag : lookupFlag (valuesByFlag params) (splitEq tok).1 = none)
    (h1 : tok ≠ "-h") (h2 : tok ≠ "--help") (h3 : tok ≠ "help") :
    flowRunnerRun ts params verbose cancelAt defaultTask (pre ++ tok :: rest)
      = ⟨CodeInvalidArgs, [unknownArgLine tok], [], []⟩ ∧
    flowRunnerRun ts params verbose cancelAt defaultTask (pre ++ tok :: rest)
      = flowRunnerRun ts params verbose cancelAt defaultTask (pre ++ [tok]) := by
  have hstep : stepArg (ts.map (fun t => t.name)) (valuesByFlag params) st tok
      = .error (.unknownArg tok) := by
    have hb1 : (tok == "-h") = false := by simpa using h1
    have hb2 : (tok == "--help") = false := by simpa using h2
    have hb3 : (tok == "help") = false := by simpa using h3
    have htask' : ∀ x ∈ ts, ¬x.name = tok := by simpa using htask
    simp [stepArg, hpend, hflag, hb1, hb2, hb3]
    exact htask'
  have hscan : ∀ r : List String,
      scanArgs (ts.map (fun t => t.name)) (valuesByFlag params) (pre ++ tok :: r)
        ⟨none, [], false⟩ = .error (.unknownArg tok) := by
    intro r
    rw [scanArgs_append, hpre]
    exact scanArgs_error_head _ _ r st tok _ hstep
  constructor
  · unfold flowRunnerRun
    rw [hscan rest]
  · unfold flowRunnerRun
    rw [hscan rest, hscan []]

/-- Instance of `run_unknown_argument`: `--does-not-exist` aborts with
status 2 and an unknown-argument line even though a runnable task follows
it. -/
theorem run_unknown_argument_witness :
    (flowRunnerRun [⟨"build", some ⟨.pass, []⟩, [], [], ""⟩] [] false none ""
        ([] ++ "--does-not-exist" :: ["build"])
      = ⟨CodeInvalidArgs, [unknownArgLine "--does-not-exist"], [], []⟩) ∧
    (flowRunnerRun [⟨"build", some ⟨.pass, []⟩, [], [], ""⟩] [] false none ""
        ([] ++ "--does-not-exist" :: ["build"])
      = flowRunnerRun [⟨"build", some ⟨.pass, []⟩, [], [], ""⟩] [] false none ""
          ([] ++ ["--does-not-exist"])) :=
  run_unknown_argument [⟨"build", some ⟨.pass, []⟩, [], [], ""⟩] []
    false none "" [] ["build"] "--does-not-exist" ⟨none, [], false⟩ rfl rfl
    (by decide) rfl (by decide) (by decide) (by decide)

/-! ## Lemmas: the dependency graph -/

theorem Reachable_mono_roots {ts : List Task} {roots roots' : List String} {x : String}
    (h : Reachable ts roots x) (hsub : ∀ r ∈ roots, r ∈ roots') : Reachable ts roots' x := by
  induction h with
  | root hr => exact .root (hsub _ hr)
  | dep _ hd ih => exact .dep ih hd

theorem Reachable_trans {ts : List Task} {roots : List String} {m x : String}
    (hx : Reachable ts [m] x) (hm : Reachable ts roots m) : Reachable ts roots x := by
  induction hx with
  | @root n hr =>
    have hnm : n = m := by simpa using hr
    exact hnm ▸ hm
  | dep _ hd ih => exact .dep ih hd

theorem Reachable_of_list {ts : List Task} {roots : List String} {x : String}
    (h : Reachable ts roots x) : ∃ r ∈ roots, Reachable ts [r] x := by
  induction h with
  | root hr => exact ⟨_, hr, .root (by simp)⟩
  | dep _ hd ih =>
    obtain ⟨r, hr, hrx⟩ := ih
    exact ⟨r, hr, .dep hrx hd⟩

theorem Reachable_step {ts : List Task} {n x : String} (h : Reachable ts [n] x) :
    x = n ∨ ∃ d ∈ (findTask ts n).dependencies, Reachable ts [d] x := by
  induction h with
  | root hr => exact .inl (by simpa using hr)
  | dep _ hd ih =>
    rename_i m x' _
    rcases ih with heq | ⟨d, hdm, hdx⟩
    · subst heq
      exact .inr ⟨x', hd, .root (by simp)⟩
    · exact .inr ⟨d, hdm, .dep hdx hd⟩

/-- Registration rank: position of a name in the registration order
(`ts.length` for unregistered names). -/
def rank (ts : List Task) (n : String) : Nat := (ts.map Task.name).indexOf n

theorem findTask_cons_eq {t : Task} {rest : List Task} {nm : String} (h : t.name = nm) :
    findTask (t :: rest) nm = t := by
  have hb : (t.name == nm) = true := by simpa using h
  simp [findTask, List.find?_cons, hb]

theorem findTask_cons_ne {t : Task} {rest : List Task} {nm : String} (h : ¬t.name = nm) :
    findTask (t :: rest) nm = findTask rest nm := by
  have hb : (t.name == nm) = false := by simpa using h
  simp [findTask, List.find?_cons, hb]

theorem rank_cons_self {t : Task} {rest : List Task} : rank (t :: rest) t.name = 0 := by
  simp [rank, List.indexOf_cons]

theorem rank_cons_ne {t : Task} {rest : List Task} {nm : String} (h : ¬t.name = nm) :
    rank (t :: rest) nm = rank rest nm + 1 := by
  have hb : (t.name == nm) = false := by simpa using h
  simp [rank, List.indexOf_cons, hb]

theorem validAcc_cons {seen : List String} {t : Task} {rest : List Task}
    (h : validAcc seen (t :: rest) = true) :
    t.name ∉ seen ∧ (∀ d ∈ t.dependencies, d ∈ seen) ∧ validAcc (t.name :: seen) rest = true := by
  simp only [validAcc, Bool.and_eq_true, Bool.not_eq_true'] at h
  refine ⟨?_, ?_, h.2⟩
  · intro hmem
    have h1 := h.1.1
    simp at h1
    exact h1 hmem
  · intro d hd
    have h2 := List.all_eq_true.1 h.1.2 d hd
    simpa using h2

theorem validAcc_dep_rank : ∀ (pre : List String) (ts : List Task),
    validAcc pre ts = true →
    ∀ nm, ∀ d ∈ (findTask ts nm).dependencies, d ∈ pre ∨ rank ts d < rank ts nm := by
  intro pre ts
  induction ts generalizing pre with
  | nil =>
    intro _ nm d hd
    simp [findTask, zeroTask] at hd
  | cons t rest ih =>
    intro hv nm d hd
    obtain ⟨hnm, hdeps, hrest⟩ := validAcc_cons hv
    by_cases hbeq : t.name = nm
    · rw [findTask_cons_eq hbeq] at hd
      exact .inl (hdeps d hd)
    · rw [findTask_cons_ne hbeq] at hd
      have h1 : rank (t :: rest) nm = rank rest nm + 1 := rank_cons_ne hbeq
      rcases ih (t.name :: pre) hrest nm d hd with hmem | hlt
      · rcases List.mem_cons.1 hmem with heq | hpre
        · right
          have h0 : rank (t :: rest) d = 0 := by
            rw [heq]
            exact rank_cons_self
          omega
        · exact .inl hpre
      · right
        by_cases hdt : t.name = d
        · have h0 : rank (t :: rest) d = 0 := by
            rw [← hdt]
            exact rank_cons_self
          omega
        · have h0 : rank (t :: rest) d = rank rest d + 1 := rank_cons_ne hdt
          omega

theorem vg_dep_rank {ts : List Task} (hv : validGraph ts = true) {nm d : String}
    (hd : d ∈ (findTask ts nm).dependencies) : rank ts d < rank ts nm := by
  rcases validAcc_dep_rank [] ts hv nm d hd with hmem | hlt
  · cases hmem
  · exact hlt

theorem vg_reach_rank {ts : List Task} (hv : validGraph ts = true) {m x : String}
    (h : Reachable ts [m] x) : rank ts x ≤ rank ts m := by
  induction h with
  | @root n hr =>
    have hnm : n = m := by simpa using hr
    subst hnm
    exact le_refl _
  | dep _ hd ih => exact le_trans (le_of_lt (vg_dep_rank hv hd)) ih

theorem vg_dep_reach_ne {ts : List Task} (hv : validGraph ts = true) {nm d x : String}
    (hd : d ∈ (findTask ts nm).dependencies) (hx : Reachable ts [d] x) : x ≠ nm := by
  intro heq
  subst heq
  have h1 := vg_reach_rank hv hx
  have h2 := vg_dep_rank hv hd
  omega

/-! ## Lemmas: executor invariants -/

/-- Invariant pieces of an `ExecState` that hold at every point of a run
(also at error states). -/
structure InvCore (ts : List Task) (s : ExecState) : Prop where
  nd : s.trace.Nodup
  e2t : ∀ n ∈ s.executed, (findTask ts n).command.isSome → n ∈ s.trace
  closed : ∀ n ∈ s.executed, ∀ d ∈ (findTask ts n).dependencies, d ∈ s.executed
  sound : ∀ n ∈ s.executed, ∀ b, (findTask ts n).command = some b → b.result ≠ .fail
  tdeps : ∀ m ∈ s.trace, ∀ d ∈ (findTask ts m).dependencies, d ∈ s.executed
  ord : ∀ t ∈ s.trace, ∀ d ∈ (findTask ts t).dependencies,
    (findTask ts d).command.isSome → Before s.trace d t

/-- Additionally, on the non-error path every invoked task has been marked
executed. -/
def InvOk (ts : List Task) (s : ExecState) : Prop :=
  InvCore ts s ∧ ∀ n ∈ s.trace, n ∈ s.executed

theorem InvOk_init (ts : List Task) : InvOk ts initState :=
  ⟨⟨by simp [initState], by simp [initState], by simp [initState], by simp [initState],
    by simp [initState], by simp [initState]⟩, by simp [initState]⟩

theorem closed_reach {ts : List Task} {s : ExecState}
    (hc : ∀ n ∈ s.executed, ∀ d ∈ (findTask ts n).dependencies, d ∈ s.executed)
    {n x : String} (hn : n ∈ s.executed) (hx : Reachable ts [n] x) : x ∈ s.executed := by
  induction hx with
  | @root y hr =>
    have hyn : y = n := by simpa using hr
    subst hyn
    exact hn
  | dep _ hd ih => exact hc _ ih _ hd

theorem Before_append {l l' : List String} {a b : String} (h : Before l a b) :
    Before (l ++ l') a b := by
  obtain ⟨l1, l2, l3, rfl⟩ := h
  exact ⟨l1, l2, l3 ++ l', by simp⟩

theorem Before_concat_of_mem {l : List String} {a b : String} (h : a ∈ l) :
    Before (l ++ [b]) a b := by
  obtain ⟨l1, l2, rfl⟩ := List.append_of_mem h
  exact ⟨l1, l2, [], by simp⟩

theorem nodup_concat_of {l : List String} {a : String} (hl : l.Nodup) (ha : a ∉ l) :
    (l ++ [a]).Nodup := by
  rw [List.nodup_append]
  refine ⟨hl, by simp, ?_⟩
  intro x hx hxa
  simp at hxa
  exact ha (hxa ▸ hx)

theorem getLast?_append_singleton (l : List String) (a : String) :
    (l ++ [a]).getLast? = some a := by
  induction l with
  | nil => rfl
  | cons x xs ih =>
    rw [List.cons_append, List.getLast?_cons]
    simp [ih]

theorem Reachable_self (ts : List Task) (n : String) : Reachable ts [n] n :=
  .root (by simp)

theorem Reachable_deps_to_name {ts : List Task} {name x : String}
    (h : Reachable ts (findTask ts name).dependencies x) : Reachable ts [name] x := by
  obtain ⟨d, hd, hdx⟩ := Reachable_of_list h
  exact Reachable_trans hdx (.dep (Reachable_self ts name) hd)

/-- Everything the fuel induction establishes about one `run`/dependency
loop step: the state only grows, everything added is reachable from the
roots, the core invariant is preserved, a clean return leaves every
invoked task marked and the whole closure of the roots executed, and a
task-failure return leaves the failing task as the very last invocation,
unmarked. -/
structure Conc (ts : List Task) (roots : List String) (s s' : ExecState) (e : Option RunErr) :
    Prop where
  execExt : ∃ dx, s'.executed = s.executed ++ dx
  traceExt : ∃ dt, s'.trace = s.trace ++ dt
  execReach : ∀ n ∈ s'.executed, n ∈ s.executed ∨ Reachable ts roots n
  traceReach : ∀ n ∈ s'.trace, n ∈ s.trace ∨ Reachable ts roots n
  core : InvCore ts s'
  okFacts : e = none → (∀ n ∈ s'.trace, n ∈ s'.executed) ∧
    (∀ r ∈ roots, ∀ x, Reachable ts [r] x → x ∈ s'.executed)
  failFacts : e = some .taskFailed → ∃ f b, s'.trace.getLast? = some f ∧
    (findTask ts f).command = some b ∧ b.result = .fail ∧ f ∉ s'.executed ∧
    ∀ n ∈ s'.trace, n ∈ s'.executed ∨ n = f

theorem Conc_skip {ts : List Task} {roots : List String} {s : ExecState}
    (hInv : InvOk ts s) (hall : ∀ r ∈ roots, r ∈ s.executed) : Conc ts roots s s none where
  execExt := ⟨[], by simp⟩
  traceExt := ⟨[], by simp⟩
  execReach := fun n hn => .inl hn
  traceReach := fun n hn => .inl hn
  core := hInv.1
  okFacts := fun _ => ⟨hInv.2, fun r hr x hx => closed_reach hInv.1.closed (hall r hr) hx⟩
  failFacts := fun h => by cases h

theorem Conc_comp_cons {ts : List Task} {n : String} {rest : List String}
    {s s1 s' : ExecState} {e : Option RunErr}
    (h1 : Conc ts [n] s s1 none) (h2 : Conc ts rest s1 s' e) : Conc ts (n :: rest) s s' e where
  execExt := by
    obtain ⟨d1, hd1⟩ := h1.execExt
    obtain ⟨d2, hd2⟩ := h2.execExt
    exact ⟨d1 ++ d2, by rw [hd2, hd1, List.append_assoc]⟩
  traceExt := by
    obtain ⟨d1, hd1⟩ := h1.traceExt
    obtain ⟨d2, hd2⟩ := h2.traceExt
    exact ⟨d1 ++ d2, by rw [hd2, hd1, List.append_assoc]⟩
  execReach := by
    intro x hx
    rcases h2.execReach x hx with hx1 | hx1
    · rcases h1.execReach x hx1 with hx2 | hx2
      · exact .inl hx2
      · exact .inr (Reachable_mono_roots hx2 (by simp))
    · exact .inr (Reachable_mono_roots hx1 (by intro r hr; simp [hr]))
  traceReach := by
    intro x hx
    rcases h2.traceReach x hx with hx1 | hx1
    · rcases h1.traceReach x hx1 with hx2 | hx2
      · exact .inl hx2
      · exact .inr (Reachable_mono_roots hx2 (by simp))
    · exact .inr (Reachable_mono_roots hx1 (by intro r hr; simp [hr]))
  core := h2.core
  okFacts := by
    intro he
    obtain ⟨hte, hcl⟩ := h2.okFacts he
    refine ⟨hte, ?_⟩
    intro r hr x hx
    rcases List.mem_cons.1 hr with rfl | hr'
    · have hx1 := (h1.okFacts rfl).2 r (by simp) x hx
      obtain ⟨d2, hd2⟩ := h2.execExt
      rw [hd2]
      exact List.mem_append_left _ hx1
    · exact hcl r hr' x hx
  failFacts := h2.failFacts

theorem Conc_err_widen {ts : List Task} {roots roots' : List String}
    {s s' : ExecState} {err : RunErr}
    (h : Conc ts roots s s' (some err)) (hsub : ∀ r ∈ roots, r ∈ roots') :
    Conc ts roots' s s' (some err) where
  execExt := h.execExt
  traceExt := h.traceExt
  execReach := fun n hn => (h.execReach n hn).imp id (fun hr => Reachable_mono_roots hr hsub)
  traceReach := fun n hn => (h.traceReach n hn).imp id (fun hr => Reachable_mono_roots hr hsub)
  core := h.core
  okFacts := fun he => by cases he
  failFacts := h.failFacts

theorem Conc_deps_to_name {ts : List Task} {name : String} {s s' : ExecState} {err : RunErr}
    (h : Conc ts (findTask ts name).dependencies s s' (some err)) :
    Conc ts [name] s s' (some err) where
  execExt := h.execExt
  traceExt := h.traceExt
  execReach := fun n hn => (h.execReach n hn).imp id Reachable_deps_to_name
  traceReach := fun n hn => (h.traceReach n hn).imp id Reachable_deps_to_name
  core := h.core
  okFacts := fun he => by cases he
  failFacts := h.failFacts

/-! Unfolding equations for the executor. -/

theorem runT_zero (ts : List Task) (verbose : Bool) (cancelAt : Option Nat)
    (name : String) (s : ExecState) : runT ts verbose cancelAt 0 name s = none := rfl

theorem runT_succ (ts : List Task) (verbose : Bool) (cancelAt : Option Nat)
    (fuel : Nat) (name : String) (s : ExecState) :
    runT ts verbose cancelAt (fuel + 1) name s
      = if name ∈ s.executed then some (s, none)
        else
          match runList ts verbose cancelAt fuel (findTask ts name).dependencies s with
          | none => none
          | some (s1, some e) => some (s1, some e)
          | some (s1, none) =>
            if ctxFired cancelAt s1.trace.length then some (s1, some .cancelled)
            else
              if ctxFired cancelAt
                  (s1.trace ++ (if (findTask ts name).command.isSome then [name] else [])).length
              then
                some (⟨s1.executed,
                  s1.trace ++ (if (findTask ts name).command.isSome then [name] else []),
                  s1.output ++ (runTask verbose (findTask ts name)).2⟩, some .cancelled)
              else if (runTask verbose (findTask ts name)).1 = false then
                some (⟨s1.executed,
                  s1.trace ++ (if (findTask ts name).command.isSome then [name] else []),
                  s1.output ++ (runTask verbose (findTask ts name)).2⟩, some .taskFailed)
              else
                some (⟨s1.executed ++ [name],
                  s1.trace ++ (if (findTask ts name).command.isSome then [name] else []),
                  s1.output ++ (runTask verbose (findTask ts name)).2⟩, none) := rfl

theorem runList_nil (ts : List Task) (verbose : Bool) (cancelAt : Option Nat)
    (fuel : Nat) (s : ExecState) :
    runList ts verbose cancelAt fuel [] s = some (s, none) := rfl

theorem runList_cons (ts : List Task) (verbose : Bool) (cancelAt : Option Nat)
    (fuel : Nat) (n : String) (rest : List String) (s : ExecState) :
    runList ts verbose cancelAt fuel (n :: rest) s
      = match runT ts verbose cancelAt fuel n s with
        | none => none
        | some (s', some e) => some (s', some e)
        | some (s', none) => runList ts verbose cancelAt fuel rest s' := rfl

/-! Invariant preservation at the three kinds of body step. -/

theorem InvCore_mark_nobody {ts : List Task} {s1 : ExecState} {name : String}
    (hcore : InvCore ts s1)
    (hcmd : (findTask ts name).command = none)
    (hdeps : ∀ d ∈ (findTask ts name).dependencies, d ∈ s1.executed)
    (o : List String) :
    InvCore ts ⟨s1.executed ++ [name], s1.trace, o⟩ where
  nd := hcore.nd
  e2t := by
    intro n hn hb
    rcases List.mem_append.1 hn with hn | hn
    · exact hcore.e2t n hn hb
    · simp at hn
      subst hn
      rw [hcmd] at hb
      cases hb
  closed := by
    intro n hn d hd
    rcases List.mem_append.1 hn with hn | hn
    · exact List.mem_append_left _ (hcore.closed n hn d hd)
    · simp at hn
      subst hn
      exact List.mem_append_left _ (hdeps d hd)
  sound := by
    intro n hn b hb
    rcases List.mem_append.1 hn with hn | hn
    · exact hcore.sound n hn b hb
    · simp at hn
      subst hn
      rw [hcmd] at hb
      cases hb
  tdeps := fun m hm d hd => List.mem_append_left _ (hcore.tdeps m hm d hd)
  ord := hcore.ord

theorem InvCore_trace_step {ts : List Task} {s1 : ExecState} {name : String} {body : Body}
    (hcore : InvCore ts s1)
    (hcmd : (findTask ts name).command = some body)
    (hdeps : ∀ d ∈ (findTask ts name).dependencies, d ∈ s1.executed)
    (hfreshT : name ∉ s1.trace) (o : List String) :
    InvCore ts ⟨s1.executed, s1.trace ++ [name], o⟩ where
  nd := nodup_concat_of hcore.nd hfreshT
  e2t := fun n hn hb => List.mem_append_left _ (hcore.e2t n hn hb)
  closed := hcore.closed
  sound := hcore.sound
  tdeps := by
    intro m hm d hd
    rcases List.mem_append.1 hm with hm | hm
    · exact hcore.tdeps m hm d hd
    · simp at hm
      subst hm
      exact hdeps d hd
  ord := by
    intro t ht d hd hb
    rcases List.mem_append.1 ht with ht | ht
    · exact Before_append (hcore.ord t ht d hd hb)
    · simp at ht
      subst ht
      exact Before_concat_of_mem (hcore.e2t d (hdeps d hd) hb)

theorem InvCore_trace_mark {ts : List Task} {s1 : ExecState} {name : String} {body : Body}
    (hcore : InvCore ts s1)
    (hcmd : (findTask ts name).command = some body)
    (hres : body.result ≠ .fail)
    (hdeps : ∀ d ∈ (findTask ts name).dependencies, d ∈ s1.executed)
    (hfreshT : name ∉ s1.trace) (o : List String) :
    InvCore ts ⟨s1.executed ++ [name], s1.trace ++ [name], o⟩ where
  nd := nodup_concat_of hcore.nd hfreshT
  e2t := by
    intro n hn hb
    rcases List.mem_append.1 hn with hn | hn
    · exact List.mem_append_left _ (hcore.e2t n hn hb)
    · simp at hn
      subst hn
      simp
  closed := by
    intro n hn d hd
    rcases List.mem_append.1 hn with hn | hn
    · exact List.mem_append_left _ (hcore.closed n hn d hd)
    · simp at hn
      subst hn
      exact List.mem_append_left _ (hdeps d hd)
  sound := by
    intro n hn b hb
    rcases List.mem_append.1 hn with hn | hn
    · exact hcore.sound n hn b hb
    · simp at hn
      subst hn
      rw [hcmd] at hb
      injection hb with hb
      exact hb ▸ hres
  tdeps := by
    intro m hm d hd
    rcases List.mem_append.1 hm with hm | hm
    · exact List.mem_append_left _ (hcore.tdeps m hm d hd)
    · simp at hm
      subst hm
      exact List.mem_append_left _ (hdeps d hd)
  ord := by
    intro t ht d hd hb
    rcases List.mem_append.1 ht with ht | ht
    · exact Before_append (hcore.ord t ht d hd hb)
    · simp at ht
      subst ht
      exact Before_concat_of_mem (hcore.e2t d (hdeps d hd) hb)

/-- The master induction over the executor: every `run`/dependency-loop
step satisfies `Conc` (state growth, reachability of everything added,
invariant preservation, and the clean/failing return shapes). -/
theorem run_master {ts : List Task} {verbose : Bool} {cancelAt : Option Nat}
    (hv : validGraph ts = true) : ∀ fuel : Nat,
    (∀ name s s' e, InvOk ts s →
      runT ts verbose cancelAt fuel name s = some (s', e) → Conc ts [name] s s' e) ∧
    (∀ l s s' e, InvOk ts s →
      runList ts verbose cancelAt fuel l s = some (s', e) → Conc ts l s s' e) := by
  intro fuel
  induction fuel with
  | zero =>
    constructor
    · intro name s s' e _ h
      rw [runT_zero] at h
      exact Option.noConfusion h
    · intro l s s' e hInv h
      cases l with
      | nil =>
        rw [runList_nil] at h
        simp only [Option.some.injEq, Prod.mk.injEq] at h
        obtain ⟨rfl, rfl⟩ := h
        exact Conc_skip hInv (by simp)
      | cons n rest =>
        rw [runList_cons, runT_zero] at h
        exact Option.noConfusion h
  | succ f ih =>
    obtain ⟨ihT, ihL⟩ := ih
    have hT : ∀ name s s' e, InvOk ts s →
        runT ts verbose cancelAt (f + 1) name s = some (s', e) → Conc ts [name] s s' e := by
      intro name s s' e hInv h
      rw [runT_succ] at h
      by_cases hmem : name ∈ s.executed
      · rw [if_pos hmem] at h
        simp only [Option.some.injEq, Prod.mk.injEq] at h
        obtain ⟨rfl, rfl⟩ := h
        refine Conc_skip hInv ?_
        intro r hr
        simp at hr
        exact hr ▸ hmem
      · rw [if_neg hmem] at h
        rcases hL : runList ts verbose cancelAt f (findTask ts name).dependencies s
          with _ | ⟨s1, e1⟩
        · rw [hL] at h
          exact Option.noConfusion h
        · rw [hL] at h
          have hConcD := ihL _ s s1 e1 hInv hL
          cases e1 with
          | some err =>
            dsimp only at h
            simp only [Option.some.injEq, Prod.mk.injEq] at h
            obtain ⟨rfl, rfl⟩ := h
            exact Conc_deps_to_name hConcD
          | none =>
            dsimp only at h
            have hOk1 := hConcD.okFacts rfl
            have hInv1 : InvOk ts s1 := ⟨hConcD.core, hOk1.1⟩
            have hDepsExec : ∀ d ∈ (findTask ts name).dependencies, d ∈ s1.executed :=
              fun d hd => hOk1.2 d hd d (Reachable_self ts d)
            have hfresh : name ∉ s1.executed := by
              intro hc
              rcases hConcD.execReach name hc with h0 | h0
              · exact hmem h0
              · obtain ⟨d, hd, hdx⟩ := Reachable_of_list h0
                exact vg_dep_reach_ne hv hd hdx rfl
            have hfreshT : name ∉ s1.trace := fun hc => hfresh (hOk1.1 name hc)
            have hreach_name : ∀ x, Reachable ts [name] x → x = name ∨ x ∈ s1.executed := by
              intro x hx
              rcases Reachable_step hx with heq | ⟨d, hd, hdx⟩
              · exact .inl heq
              · exact .inr (closed_reach hConcD.core.closed (hDepsExec d hd) hdx)
            have hexecR : ∀ n ∈ s1.executed, n ∈ s.executed ∨ Reachable ts [name] n :=
              fun n hn => (hConcD.execReach n hn).imp id Reachable_deps_to_name
            have htraceR : ∀ n ∈ s1.trace, n ∈ s.trace ∨ Reachable ts [name] n :=
              fun n hn => (hConcD.traceReach n hn).imp id Reachable_deps_to_name
            by_cases hctx1 : ctxFired cancelAt s1.trace.length = true
            · rw [if_pos hctx1] at h
              simp only [Option.some.injEq, Prod.mk.injEq] at h
              obtain ⟨rfl, rfl⟩ := h
              exact { execExt := hConcD.execExt, traceExt := hConcD.traceExt,
                      execReach := hexecR, traceReach := htraceR, core := hConcD.core,
                      okFacts := fun he => (nomatch he),
                      failFacts := fun he => (nomatch he) }
            · rw [if_neg hctx1] at h
              rcases hcmd : (findTask ts name).command with _ | body
              · have hrt : runTask verbose (findTask ts name) = (true, []) := by
                  simp [runTask, hcmd]
                simp only [hcmd, Option.isSome_none, Bool.false_eq_true, if_false,
                  List.append_nil, hrt] at h
                rw [if_neg hctx1] at h
                simp at h
                obtain ⟨rfl, rfl⟩ := h
                refine { execExt := ?_, traceExt := hConcD.traceExt,
                         execReach := ?_, traceReach := htraceR,
                         core := InvCore_mark_nobody hConcD.core hcmd hDepsExec _,
                         okFacts := ?_, failFacts := fun he => (nomatch he) }
                · obtain ⟨dx, hdx⟩ := hConcD.execExt
                  exact ⟨dx ++ [name], by simp [hdx]⟩
                · intro n hn
                  rcases List.mem_append.1 hn with hn | hn
                  · exact hexecR n hn
                  · simp at hn
                    exact .inr (hn ▸ Reachable_self ts name)
                · intro _
                  constructor
                  · intro n hn
                    exact List.mem_append_left _ (hOk1.1 n hn)
                  · intro r hr x hx
                    simp at hr
                    subst hr
                    rcases hreach_name x hx with heq | hx1
                    · simp [heq]
                    · exact List.mem_append_left _ hx1
              · have hr1 : (runTask verbose (findTask ts name)).1 = !(body.result == .fail) := by
                  cases verbose <;> simp [runTask, hcmd]
                simp only [hcmd, Option.isSome_some, if_true] at h
                by_cases hctx2 : ctxFired cancelAt (s1.trace ++ [name]).length = true
                · rw [if_pos hctx2] at h
                  simp only [Option.some.injEq, Prod.mk.injEq] at h
                  obtain ⟨rfl, rfl⟩ := h
                  refine { execExt := hConcD.execExt, traceExt := ?_,
                           execReach := hexecR, traceReach := ?_,
                           core := InvCore_trace_step hConcD.core hcmd hDepsExec hfreshT _,
                           okFacts := fun he => (nomatch he),
                           failFacts := fun he => (nomatch he) }
                  · obtain ⟨dt, hdt⟩ := hConcD.traceExt
                    exact ⟨dt ++ [name], by simp [hdt]⟩
                  · intro n hn
                    rcases List.mem_append.1 hn with hn | hn
                    · exact htraceR n hn
                    · simp at hn
                      exact .inr (hn ▸ Reachable_self ts name)
                · rw [if_neg hctx2] at h
                  by_cases hfail : (runTask verbose (findTask ts name)).1 = false
                  · rw [if_pos hfail] at h
                    simp only [Option.some.injEq, Prod.mk.injEq] at h
                    obtain ⟨rfl, rfl⟩ := h
                    have hbres : body.result = .fail := by
                      rw [hr1] at hfail
                      simpa using hfail
                    refine { execExt := hConcD.execExt, traceExt := ?_,
                             execReach := hexecR, traceReach := ?_,
                             core := InvCore_trace_step hConcD.core hcmd hDepsExec hfreshT _,
                             okFacts := fun he => (nomatch he), failFacts := ?_ }
                    · obtain ⟨dt, hdt⟩ := hConcD.traceExt
                      exact ⟨dt ++ [name], by simp [hdt]⟩
                    · intro n hn
                      rcases List.mem_append.1 hn with hn | hn
                      · exact htraceR n hn
                      · simp at hn
                        exact .inr (hn ▸ Reachable_self ts name)
                    · intro _
                      refine ⟨name, body, ?_, hcmd, hbres, hfresh, ?_⟩
                      · exact getLast?_append_singleton _ _
                      · intro n hn
                        rcases List.mem_append.1 hn with hn | hn
                        · exact .inl (hOk1.1 n hn)
                        · simp at hn
                          exact .inr hn
                  · rw [if_neg hfail] at h
                    simp only [Option.some.injEq, Prod.mk.injEq] at h
                    obtain ⟨rfl, rfl⟩ := h
                    have hbres : body.result ≠ .fail := by
                      rw [hr1] at hfail
                      intro hc
                      simp [hc] at hfail
                    refine { execExt := ?_, traceExt := ?_,
                             execReach := ?_, traceReach := ?_,
                             core := InvCore_trace_mark hConcD.core hcmd hbres hDepsExec hfreshT _,
                             okFacts := ?_, failFacts := fun he => (nomatch he) }
                    · obtain ⟨dx, hdx⟩ := hConcD.execExt
                      exact ⟨dx ++ [name], by simp [hdx]⟩
                    · obtain ⟨dt, hdt⟩ := hConcD.traceExt
                      exact ⟨dt ++ [name], by simp [hdt]⟩
                    · intro n hn
                      rcases List.mem_append.1 hn with hn | hn
                      · exact hexecR n hn
                      · simp at hn
                        exact .inr (hn ▸ Reachable_self ts name)
                    · intro n hn
                      rcases List.mem_append.1 hn with hn | hn
                      · exact htraceR n hn
                      · simp at hn
                        exact .inr (hn ▸ Reachable_self ts name)
                    · intro _
                      constructor
                      · intro n hn
                        rcases List.mem_append.1 hn with hn | hn
                        · exact List.mem_append_left _ (hOk1.1 n hn)
                        · simp at hn
                          simp [hn]
                      · intro r hr x hx
                        simp at hr
                        subst hr
                        rcases hreach_name x hx with heq | hx1
                        · simp [heq]
                        · exact List.mem_append_left _ hx1
    refine ⟨hT, ?_⟩
    intro l
    induction l with
    | nil =>
      intro s s' e hInv h
      rw [runList_nil] at h
      simp only [Option.some.injEq, Prod.mk.injEq] at h
      obtain ⟨rfl, rfl⟩ := h
      exact Conc_skip hInv (by simp)
    | cons n rest ihRest =>
      intro s s' e hInv h
      rw [runList_cons] at h
      rcases h1 : runT ts verbose cancelAt (f + 1) n s with _ | ⟨s1, e1⟩
      · rw [h1] at h
        exact Option.noConfusion h
      · rw [h1] at h
        have hConc1 := hT n s s1 e1 hInv h1
        cases e1 with
        | some err =>
          dsimp only at h
          simp only [Option.some.injEq, Prod.mk.injEq] at h
          obtain ⟨rfl, rfl⟩ := h
          exact Conc_err_widen hConc1 (by simp)
        | none =>
          dsimp only at h
          have hOk1 := hConc1.okFacts rfl
          exact Conc_comp_cons hConc1 (ihRest s1 s' e ⟨hConc1.core, hOk1.1⟩ h)

/-- For valid graphs, fuel exceeding the task's registration rank never
runs out (dependencies always have strictly smaller rank). -/
theorem runT_isSome_of_valid {ts : List Task} {verbose : Bool} {cancelAt : Option Nat}
    (hv : validGraph ts = true) :
    ∀ fuel name s, rank ts name < fuel → (runT ts verbose cancelAt fuel name s).isSome := by
  intro fuel
  induction fuel with
  | zero =>
    intro name s h
    omega
  | succ f ih =>
    have ihL : ∀ l s, (∀ d ∈ l, rank ts d < f) →
        (runList ts verbose cancelAt f l s).isSome = true := by
      intro l
      induction l with
      | nil =>
        intro s _
        rw [runList_nil]
        rfl
      | cons d rest ihr =>
        intro s hdl
        rw [runList_cons]
        have h1 := ih d s (hdl d (by simp))
        rcases hruns : runT ts verbose cancelAt f d s with _ | ⟨s1, e1⟩
        · rw [hruns] at h1
          exact absurd h1 (by simp)
        · cases e1 with
          | some err => rfl
          | none =>
            dsimp only
            exact ihr s1 (fun d' hd' => hdl d' (by simp [hd']))
    intro name s hrank
    rw [runT_succ]
    by_cases hmem : name ∈ s.executed
    · rw [if_pos hmem]
      rfl
    · rw [if_neg hmem]
      have hdeps : ∀ d ∈ (findTask ts name).dependencies, rank ts d < f := by
        intro d hd
        have := vg_dep_rank hv hd
        omega
      have hL := ihL (findTask ts name).dependencies s hdeps
      rcases hruns : runList ts verbose cancelAt f (findTask ts name).dependencies s
        with _ | ⟨s1, e1⟩
      · rw [hruns] at hL
        exact absurd hL (by simp)
      · cases e1 with
        | some err => rfl
        | none =>
          dsimp only
          repeat' split
          all_goals rfl

/-- Every name's rank is at most the registry's length, so fuel
`ts.length + 1` always suffices. -/
theorem rank_le_length (ts : List Task) (n : String) : rank ts n ≤ ts.length := by
  have h := List.indexOf_le_length (a := n) (l := ts.map Task.name)
  simpa [rank] using h

/-- Without a cancellation signal, the executor never reports the
cancellation error. -/
theorem runT_nocancel {ts : List Task} {verbose : Bool} :
    ∀ fuel,
    (∀ name s s' e, runT ts verbose none fuel name s = some (s', e) → e ≠ some .cancelled) ∧
    (∀ l s s' e, runList ts verbose none fuel l s = some (s', e) → e ≠ some .cancelled) := by
  intro fuel
  induction fuel with
  | zero =>
    constructor
    · intro name s s' e h
      rw [runT_zero] at h
      exact Option.noConfusion h
    · intro l s s' e h
      cases l with
      | nil =>
        rw [runList_nil] at h
        simp only [Option.some.injEq, Prod.mk.injEq] at h
        obtain ⟨rfl, rfl⟩ := h
        simp
      | cons n rest =>
        rw [runList_cons, runT_zero] at h
        exact Option.noConfusion h
  | succ f ih =>
    obtain ⟨ihT, ihL⟩ := ih
    have hT : ∀ name s s' e, runT ts verbose none (f + 1) name s = some (s', e) →
        e ≠ some .cancelled := by
      intro name s s' e h
      rw [runT_succ] at h
      by_cases hmem : name ∈ s.executed
      · rw [if_pos hmem] at h
        simp only [Option.some.injEq, Prod.mk.injEq] at h
        obtain ⟨rfl, rfl⟩ := h
        simp
      · rw [if_neg hmem] at h
        rcases hL : runList ts verbose none f (findTask ts name).dependencies s
          with _ | ⟨s1, e1⟩
        · rw [hL] at h
          exact Option.noConfusion h
        · rw [hL] at h
          cases e1 with
          | some err =>
            dsimp only at h
            simp only [Option.some.injEq, Prod.mk.injEq] at h
            obtain ⟨rfl, rfl⟩ := h
            exact ihL _ s s1 _ hL
          | none =>
            dsimp only at h
            rw [if_neg (by simp [ctxFired])] at h
            rw [if_neg (by simp [ctxFired])] at h
            by_cases hfail : (runTask verbose (findTask ts name)).1 = false
            · rw [if_pos hfail] at h
              simp only [Option.some.injEq, Prod.mk.injEq] at h
              obtain ⟨rfl, rfl⟩ := h
              simp
            · rw [if_neg hfail] at h
              simp only [Option.some.injEq, Prod.mk.injEq] at h
              obtain ⟨rfl, rfl⟩ := h
              simp
    refine ⟨hT, ?_⟩
    intro l
    induction l with
    | nil =>
      intro s s' e h
      rw [runList_nil] at h
      simp only [Option.some.injEq, Prod.mk.injEq] at h
      obtain ⟨rfl, rfl⟩ := h
      simp
    | cons n rest ihRest =>
      intro s s' e h
      rw [runList_cons] at h
      rcases h1 : runT ts verbose none (f + 1) n s with _ | ⟨s1, e1⟩
      · rw [h1] at h
        exact Option.noConfusion h
      · rw [h1] at h
        cases e1 with
        | some err =>
          dsimp only at h
          simp only [Option.some.injEq, Prod.mk.injEq] at h
          obtain ⟨rfl, rfl⟩ := h
          exact hT n s s1 _ h1
        | none =>
          dsimp only at h
          exact ihRest s1 s' e h

/-- Once the cancellation signal has fired, `run` does nothing: it either
skips an already-executed task or returns the cancellation error with the
state untouched. -/
theorem runT_fired {ts : List Task} {verbose : Bool} {k : Nat} :
    ∀ fuel,
    (∀ name s s' e, ctxFired (some k) s.trace.length = true →
      runT ts verbose (some k) fuel name s = some (s', e) →
      s' = s ∧ (e = some .cancelled ∨ (e = none ∧ name ∈ s.executed))) ∧
    (∀ l s s' e, ctxFired (some k) s.trace.length = true →
      runList ts verbose (some k) fuel l s = some (s', e) →
      s' = s ∧ (e = some .cancelled ∨ (e = none ∧ ∀ n ∈ l, n ∈ s.executed))) := by
  intro fuel
  induction fuel with
  | zero =>
    constructor
    · intro name s s' e _ h
      rw [runT_zero] at h
      exact Option.noConfusion h
    · intro l s s' e _ h
      cases l with
      | nil =>
        rw [runList_nil] at h
        simp only [Option.some.injEq, Prod.mk.injEq] at h
        obtain ⟨rfl, rfl⟩ := h
        exact ⟨rfl, .inr ⟨rfl, by simp⟩⟩
      | cons n rest =>
        rw [runList_cons, runT_zero] at h
        exact Option.noConfusion h
  | succ f ih =>
    obtain ⟨ihT, ihL⟩ := ih
    have hT : ∀ name s s' e, ctxFired (some k) s.trace.length = true →
        runT ts verbose (some k) (f + 1) name s = some (s', e) →
        s' = s ∧ (e = some .cancelled ∨ (e = none ∧ name ∈ s.executed)) := by
      intro name s s' e hf h
      rw [runT_succ] at h
      by_cases hmem : name ∈ s.executed
      · rw [if_pos hmem] at h
        simp only [Option.some.injEq, Prod.mk.injEq] at h
        obtain ⟨rfl, rfl⟩ := h
        exact ⟨rfl, .inr ⟨rfl, hmem⟩⟩
      · rw [if_neg hmem] at h
        rcases hL : runList ts verbose (some k) f (findTask ts name).dependencies s
          with _ | ⟨s1, e1⟩
        · rw [hL] at h
          exact Option.noConfusion h
        · rw [hL] at h
          have hD := ihL _ s s1 e1 hf hL
          cases e1 with
          | some err =>
            dsimp only at h
            simp only [Option.some.injEq, Prod.mk.injEq] at h
            obtain ⟨rfl, rfl⟩ := h
            rcases hD.2 with hc | hc
            · exact ⟨hD.1, .inl hc⟩
            · exact Option.noConfusion hc.1
          | none =>
            dsimp only at h
            obtain ⟨rfl, _⟩ := hD
            rw [if_pos hf] at h
            simp only [Option.some.injEq, Prod.mk.injEq] at h
            obtain ⟨rfl, rfl⟩ := h
            exact ⟨rfl, .inl rfl⟩
    refine ⟨hT, ?_⟩
    intro l
    induction l with
    | nil =>
      intro s s' e _ h
      rw [runList_nil] at h
      simp only [Option.some.injEq, Prod.mk.injEq] at h
      obtain ⟨rfl, rfl⟩ := h
      exact ⟨rfl, .inr ⟨rfl, by simp⟩⟩
    | cons n rest ihRest =>
      intro s s' e hf h
      rw [runList_cons] at h
      rcases h1 : runT ts verbose (some k) (f + 1) n s with _ | ⟨s1, e1⟩
      · rw [h1] at h
        exact Option.noConfusion h
      · rw [h1] at h
        have hys := hT n s s1 e1 hf h1
        cases e1 with
        | some err =>
          dsimp only at h
          simp only [Option.some.injEq, Prod.mk.injEq] at h
          obtain ⟨rfl, rfl⟩ := h
          rcases hys.2 with hc | hc
          · exact ⟨hys.1, .inl hc⟩
          · exact Option.noConfusion hc.1
        | none =>
          dsimp only at h
          rw [hys.1] at h
          have hr := ihRest s s' e hf h
          refine ⟨hr.1, ?_⟩
          rcases hr.2 with hc | hc
          · exact .inl hc
          · rcases hys.2 with hcc | hcc
            · exact Option.noConfusion hcc
            · refine .inr ⟨hc.1, ?_⟩
              intro m hm
              rcases List.mem_cons.1 hm with rfl | hm'
              · exact hcc.2
              · exact hc.2 m hm'

/-- Bounds on the body-invocation clock under a cancellation threshold
`k`: no body starts once `k` invocations have completed, and if the run
stops exactly at `k` the error is the cancellation error and the task
whose body was running is not marked executed. -/
theorem runT_cancel {ts : List Task} {verbose : Bool} {k : Nat}
    (hv : validGraph ts = true) :
    ∀ fuel,
    (∀ name s s' e, InvOk ts s → s.trace.length < k →
      runT ts verbose (some k) fuel name s = some (s', e) →
      s'.trace.length ≤ k ∧ (e = none → s'.trace.length < k) ∧
      (s'.trace.length = k → e = some .cancelled ∧
        ∃ l n, s'.trace = l ++ [n] ∧ n ∉ s'.executed)) ∧
    (∀ l s s' e, InvOk ts s → s.trace.length < k →
      runList ts verbose (some k) fuel l s = some (s', e) →
      s'.trace.length ≤ k ∧ (e = none → s'.trace.length < k) ∧
      (s'.trace.length = k → e = some .cancelled ∧
        ∃ l2 n, s'.trace = l2 ++ [n] ∧ n ∉ s'.executed)) := by
  intro fuel
  induction fuel with
  | zero =>
    constructor
    · intro name s s' e _ _ h
      rw [runT_zero] at h
      exact Option.noConfusion h
    · intro l s s' e _ hlt h
      cases l with
      | nil =>
        rw [runList_nil] at h
        simp only [Option.some.injEq, Prod.mk.injEq] at h
        obtain ⟨rfl, rfl⟩ := h
        exact ⟨le_of_lt hlt, fun _ => hlt, fun hk => absurd hk (by omega)⟩
      | cons n rest =>
        rw [runList_cons, runT_zero] at h
        exact Option.noConfusion h
  | succ f ih =>
    obtain ⟨ihT, ihL⟩ := ih
    have hT : ∀ name s s' e, InvOk ts s → s.trace.length < k →
        runT ts verbose (some k) (f + 1) name s = some (s', e) →
        s'.trace.length ≤ k ∧ (e = none → s'.trace.length < k) ∧
        (s'.trace.length = k → e = some .cancelled ∧
          ∃ l n, s'.trace = l ++ [n] ∧ n ∉ s'.executed) := by
      intro name s s' e hInv hlt h
      rw [runT_succ] at h
      by_cases hmem : name ∈ s.executed
      · rw [if_pos hmem] at h
        simp only [Option.some.injEq, Prod.mk.injEq] at h
        obtain ⟨rfl, rfl⟩ := h
        exact ⟨le_of_lt hlt, fun _ => hlt, fun hk => absurd hk (by omega)⟩
      · rw [if_neg hmem] at h
        rcases hL : runList ts verbose (some k) f (findTask ts name).dependencies s
          with _ | ⟨s1, e1⟩
        · rw [hL] at h
          exact Option.noConfusion h
        · rw [hL] at h
          have hConcD := ((run_master hv f).2) _ s s1 e1 hInv hL
          have hD := ihL _ s s1 e1 hInv hlt hL
          cases e1 with
          | some err =>
            dsimp only at h
            simp only [Option.some.injEq, Prod.mk.injEq] at h
            obtain ⟨rfl, rfl⟩ := h
            exact ⟨hD.1, fun hc => Option.noConfusion hc, hD.2.2⟩
          | none =>
            dsimp only at h
            have hlt1 : s1.trace.length < k := hD.2.1 rfl
            have hOk1 := hConcD.okFacts rfl
            have hDepsExec : ∀ d ∈ (findTask ts name).dependencies, d ∈ s1.executed :=
              fun d hd => hOk1.2 d hd d (Reachable_self ts d)
            have hfresh : name ∉ s1.executed := by
              intro hc
              rcases hConcD.execReach name hc with h0 | h0
              · exact hmem h0
              · obtain ⟨d, hd, hdx⟩ := Reachable_of_list h0
                exact vg_dep_reach_ne hv hd hdx rfl
            by_cases hctx1 : ctxFired (some k) s1.trace.length = true
            · simp [ctxFired] at hctx1
              omega
            · rw [if_neg hctx1] at h
              rcases hcmd : (findTask ts name).command with _ | body
              · have hrt : runTask verbose (findTask ts name) = (true, []) := by
                  simp [runTask, hcmd]
                simp only [hcmd, Option.isSome_none, Bool.false_eq_true, if_false,
                  List.append_nil, hrt] at h
                rw [if_neg hctx1] at h
                simp at h
                obtain ⟨rfl, rfl⟩ := h
                refine ⟨?_, fun _ => ?_, fun hk => ?_⟩
                · show s1.trace.length ≤ k
                  omega
                · show s1.trace.length < k
                  omega
                · exact absurd (show s1.trace.length = k from hk) (by omega)
              · simp only [hcmd, Option.isSome_some, if_true] at h
                have hlen2 : (s1.trace ++ [name]).length = s1.trace.length + 1 := by simp
                by_cases hctx2 : ctxFired (some k) (s1.trace ++ [name]).length = true
                · rw [if_pos hctx2] at h
                  simp only [Option.some.injEq, Prod.mk.injEq] at h
                  obtain ⟨rfl, rfl⟩ := h
                  refine ⟨?_, fun hc => Option.noConfusion hc, fun _ => ?_⟩
                  · show (s1.trace ++ [name]).length ≤ k
                    simp
                    omega
                  · exact ⟨rfl, s1.trace, name, rfl, hfresh⟩
                · rw [if_neg hctx2] at h
                  simp only [ctxFired, decide_eq_true_eq] at hctx2
                  have hlt2 : s1.trace.length + 1 < k := by
                    simp only [hlen2] at hctx2
                    omega
                  by_cases hfail : (runTask verbose (findTask ts name)).1 = false
                  · rw [if_pos hfail] at h
                    simp only [Option.some.injEq, Prod.mk.injEq] at h
                    obtain ⟨rfl, rfl⟩ := h
                    refine ⟨?_, fun hc => Option.noConfusion hc, fun hk => ?_⟩
                    · show (s1.trace ++ [name]).length ≤ k
                      simp
                      omega
                    · have hk2 : s1.trace.length + 1 = k := by simpa using hk
                      omega
                  · rw [if_neg hfail] at h
                    simp only [Option.some.injEq, Prod.mk.injEq] at h
                    obtain ⟨rfl, rfl⟩ := h
                    refine ⟨?_, fun _ => ?_, fun hk => ?_⟩
                    · show (s1.trace ++ [name]).length ≤ k
                      simp
                      omega
                    · show (s1.trace ++ [name]).length < k
                      simp
                      omega
                    · have hk2 : s1.trace.length + 1 = k := by simpa using hk
                      omega
    refine ⟨hT, ?_⟩
    intro l
    induction l with
    | nil =>
      intro s s' e _ hlt h
      rw [runList_nil] at h
      simp only [Option.some.injEq, Prod.mk.injEq] at h
      obtain ⟨rfl, rfl⟩ := h
      exact ⟨le_of_lt hlt, fun _ => hlt, fun hk => absurd hk (by omega)⟩
    | cons n rest ihRest =>
      intro s s' e hInv hlt h
      rw [runList_cons] at h
      rcases h1 : runT ts verbose (some k) (f + 1) n s with _ | ⟨s1, e1⟩
      · rw [h1] at h
        exact Option.noConfusion h
      · rw [h1] at h
        have hConc1 := ((run_master hv (f + 1)).1) n s s1 e1 hInv h1
        have hys := hT n s s1 e1 hInv hlt h1
        cases e1 with
        | some err =>
          dsimp only at h
          simp only [Option.some.injEq, Prod.mk.injEq] at h
          obtain ⟨rfl, rfl⟩ := h
          exact ⟨hys.1, fun hc => Option.noConfusion hc, hys.2.2⟩
        | none =>
          dsimp only at h
          have hOk1 := hConc1.okFacts rfl
          exact ihRest s1 s' e ⟨hConc1.core, hOk1.1⟩ (hys.2.1 rfl) h

theorem runTasksLoop_nil (ts : List Task) (verbose : Bool) (cancelAt : Option Nat)
    (fuel : Nat) (s : ExecState) :
    runTasksLoop ts verbose cancelAt fuel [] s
      = some (CodePass, { s with output := s.output ++ ["ok"] }) := by
  rw [runTasksLoop]

theorem runTasksLoop_cons (ts : List Task) (verbose : Bool) (cancelAt : Option Nat)
    (fuel : Nat) (n : String) (rest : List String) (s : ExecState) :
    runTasksLoop ts verbose cancelAt fuel (n :: rest) s
      = match runT ts verbose cancelAt fuel n s with
        | none => none
        | some (s', some e) =>
          some (CodeFailure, { s' with output := s'.output ++ [errMsg e] })
        | some (s', none) => runTasksLoop ts verbose cancelAt fuel rest s' := by
  rw [runTasksLoop]

/-- What one whole `runTasks` loop guarantees: growth, reachability,
invariants, and the two terminal shapes ("ok"/`CodePass` with the whole
closure executed, or an error line with `CodeFailure` and — when the error
is a task failure — the failing task last in the trace and unmarked). -/
theorem loop_master {ts : List Task} {verbose : Bool} {cancelAt : Option Nat}
    (hv : validGraph ts = true) :
    ∀ (requests : List String) (fuel : Nat) (s : ExecState) (code : Nat) (sF : ExecState),
    InvOk ts s →
    runTasksLoop ts verbose cancelAt fuel requests s = some (code, sF) →
    (∃ dx, sF.executed = s.executed ++ dx) ∧
    (∃ dt, sF.trace = s.trace ++ dt) ∧
    (∀ n ∈ sF.trace, n ∈ s.trace ∨ Reachable ts requests n) ∧
    InvCore ts sF ∧
    ((code = CodePass ∧ sF.output.getLast? = some "ok" ∧
        (∀ n ∈ sF.trace, n ∈ sF.executed) ∧
        (∀ r ∈ requests, ∀ x, Reachable ts [r] x → x ∈ sF.executed)) ∨
      (code = CodeFailure ∧ ∃ e : RunErr, sF.output.getLast? = some (errMsg e) ∧
        (cancelAt = none → e = .taskFailed) ∧
        (e = .taskFailed → ∃ f b, sF.trace.getLast? = some f ∧
          (findTask ts f).command = some b ∧ b.result = .fail ∧ f ∉ sF.executed ∧
          ∀ n ∈ sF.trace, n ∈ sF.executed ∨ n = f))) := by
  intro requests
  induction requests with
  | nil =>
    intro fuel s code sF hInv h
    rw [runTasksLoop_nil] at h
    simp only [Option.some.injEq, Prod.mk.injEq] at h
    obtain ⟨rfl, rfl⟩ := h
    refine ⟨⟨[], by simp⟩, ⟨[], by simp⟩, fun n hn => .inl hn,
      ⟨hInv.1.nd, hInv.1.e2t, hInv.1.closed, hInv.1.sound, hInv.1.tdeps, hInv.1.ord⟩, ?_⟩
    exact .inl ⟨rfl, getLast?_append_singleton _ _, hInv.2, by simp⟩
  | cons r rest ih =>
    intro fuel s code sF hInv h
    rw [runTasksLoop_cons] at h
    rcases h1 : runT ts verbose cancelAt fuel r s with _ | ⟨s1, e1⟩
    · rw [h1] at h
      exact Option.noConfusion h
    · rw [h1] at h
      have hConc := ((run_master hv fuel).1) r s s1 e1 hInv h1
      cases e1 with
      | some err =>
        dsimp only at h
        simp only [Option.some.injEq, Prod.mk.injEq] at h
        obtain ⟨rfl, rfl⟩ := h
        refine ⟨?_, ?_, ?_, ?_, ?_⟩
        · obtain ⟨dx, hdx⟩ := hConc.execExt
          exact ⟨dx, by simpa using hdx⟩
        · obtain ⟨dt, hdt⟩ := hConc.traceExt
          exact ⟨dt, by simpa using hdt⟩
        · intro n hn
          exact (hConc.traceReach n hn).imp id
            (fun hr => Reachable_mono_roots hr (by simp))
        · exact ⟨hConc.core.nd, hConc.core.e2t, hConc.core.closed, hConc.core.sound,
            hConc.core.tdeps, hConc.core.ord⟩
        · refine .inr ⟨rfl, err, getLast?_append_singleton _ _, ?_, ?_⟩
          · intro hnone
            subst hnone
            have hnc := ((@runT_nocancel ts verbose fuel).1) r s s1 (some err) h1
            cases err with
            | cancelled => exact absurd rfl hnc
            | taskFailed => rfl
          · intro herr
            subst herr
            obtain ⟨f, b, h2, h3, h4, h5, h6⟩ := hConc.failFacts rfl
            exact ⟨f, b, h2, h3, h4, h5, h6⟩
      | none =>
        dsimp only at h
        have hOk1 := hConc.okFacts rfl
        have hrec := ih fuel s1 code sF ⟨hConc.core, hOk1.1⟩ h
        obtain ⟨⟨dx1, hdx1⟩, ⟨dt1, hdt1⟩, hreach, hcore, hsh⟩ := hrec
        refine ⟨?_, ?_, ?_, hcore, ?_⟩
        · obtain ⟨dx0, hdx0⟩ := hConc.execExt
          exact ⟨dx0 ++ dx1, by rw [hdx1, hdx0, List.append_assoc]⟩
        · obtain ⟨dt0, hdt0⟩ := hConc.traceExt
          exact ⟨dt0 ++ dt1, by rw [hdt1, hdt0, List.append_assoc]⟩
        · intro n hn
          rcases hreach n hn with hn1 | hn1
          · rcases hConc.traceReach n hn1 with hn2 | hn2
            · exact .inl hn2
            · exact .inr (Reachable_mono_roots hn2 (by simp))
          · exact .inr (Reachable_mono_roots hn1 (by intro x hx; simp [hx]))
        · rcases hsh with ⟨hc, hok, hte, hcl⟩ | hfailc
          · refine .inl ⟨hc, hok, hte, ?_⟩
            intro q hq x hx
            rcases List.mem_cons.1 hq with rfl | hq'
            · have hx1 := hOk1.2 q (by simp) x hx
              rw [hdx1]
              exact List.mem_append_left _ hx1
            · exact hcl q hq' x hx
          · exact .inr hfailc

/-- The loop-level cancellation bounds (entered before the signal has
fired). -/
theorem loop_cancel {ts : List Task} {verbose : Bool} {k : Nat}
    (hv : validGraph ts = true) :
    ∀ (requests : List String) (fuel : Nat) (s : ExecState) (code : Nat) (sF : ExecState),
    InvOk ts s → s.trace.length < k →
    runTasksLoop ts verbose (some k) fuel requests s = some (code, sF) →
    sF.trace.length ≤ k ∧
    (sF.trace.length = k → code = CodeFailure ∧
      sF.output.getLast? = some (errMsg .cancelled) ∧
      ∀ n, sF.trace.getLast? = some n → n ∉ sF.executed) := by
  intro requests
  induction requests with
  | nil =>
    intro fuel s code sF _ hlt h
    rw [runTasksLoop_nil] at h
    simp only [Option.some.injEq, Prod.mk.injEq] at h
    obtain ⟨rfl, rfl⟩ := h
    refine ⟨?_, fun hk => ?_⟩
    · show s.trace.length ≤ k
      omega
    · exact absurd (show s.trace.length = k from hk) (by omega)
  | cons r rest ih =>
    intro fuel s code sF hInv hlt h
    rw [runTasksLoop_cons] at h
    rcases h1 : runT ts verbose (some k) fuel r s with _ | ⟨s1, e1⟩
    · rw [h1] at h
      exact Option.noConfusion h
    · rw [h1] at h
      have hConc := ((run_master hv fuel).1) r s s1 e1 hInv h1
      have hcan := ((runT_cancel hv fuel).1) r s s1 e1 hInv hlt h1
      cases e1 with
      | some err =>
        dsimp only at h
        simp only [Option.some.injEq, Prod.mk.injEq] at h
        obtain ⟨rfl, rfl⟩ := h
        refine ⟨?_, fun hk => ?_⟩
        · show s1.trace.length ≤ k
          exact hcan.1
        · have hk1 : s1.trace.length = k := hk
          obtain ⟨herr, l2, n, htr, hnex⟩ := hcan.2.2 hk1
          injection herr with herr2
          subst herr2
          refine ⟨rfl, getLast?_append_singleton _ _, ?_⟩
          intro m hm
          show m ∉ s1.executed
          have hlast : s1.trace.getLast? = some n := by
            rw [htr]
            exact getLast?_append_singleton _ _
          have hm' : s1.trace.getLast? = some m := hm
          rw [hlast] at hm'
          injection hm' with hm2
          exact hm2 ▸ hnex
      | none =>
        dsimp only at h
        have hOk1 := hConc.okFacts rfl
        exact ih fuel s1 code sF ⟨hConc.core, hOk1.1⟩ (hcan.2.1 rfl) h

/-- For a valid graph the loop never runs out of fuel at `ts.length + 1`.
-/
theorem runTasksLoop_isSome {ts : List Task} {verbose : Bool} {cancelAt : Option Nat}
    (hv : validGraph ts = true) :
    ∀ (requests : List String) (fuel : Nat), ts.length < fuel →
    ∀ s, (runTasksLoop ts verbose cancelAt fuel requests s).isSome := by
  intro requests fuel hfuel
  induction requests with
  | nil =>
    intro s
    rw [runTasksLoop_nil]
    rfl
  | cons r rest ih =>
    intro s
    rw [runTasksLoop_cons]
    have h1 : (runT ts verbose cancelAt fuel r s).isSome := by
      apply runT_isSome_of_valid hv
      have := rank_le_length ts r
      omega
    rcases hruns : runT ts verbose cancelAt fuel r s with _ | ⟨s1, e1⟩
    · rw [hruns] at h1
      exact absurd h1 (by simp)
    · cases e1 with
      | some err => rfl
      | none =>
        dsimp only
        exact ih s1

/-- `runFlow` always returns a value on a valid graph, and `flowResult`
is that value. -/
theorem runFlow_eq {ts : List Task} {verbose : Bool} {cancelAt : Option Nat}
    (hv : validGraph ts = true) (requests : List String) :
    runFlow ts verbose cancelAt requests
      = some (flowResult ts verbose cancelAt requests) := by
  have h := @runTasksLoop_isSome ts verbose cancelAt hv requests (ts.length + 1)
    (by omega) initState
  unfold runFlow flowResult runFlow
  rcases hrf : runTasksLoop ts verbose cancelAt (ts.length + 1) requests initState
    with _ | v
  · rw [hrf] at h
    exact absurd h (by simp)
  · simp

theorem DependsOn_executed {ts : List Task} {s : ExecState} (hcore : InvCore ts s)
    {m x : String} (hm : m ∈ s.trace) (hdep : DependsOn ts m x) : x ∈ s.executed := by
  induction hdep with
  | direct hd => exact hcore.tdeps _ hm _ hd
  | trans _ hd ih => exact hcore.closed _ ih _ hd

theorem findTask_mem_or_zero (ts : List Task) (name : String) :
    findTask ts name ∈ ts ∨ findTask ts name = zeroTask := by
  unfold findTask
  rcases hf : ts.find? (fun t => t.name == name) with _ | t
  · rw [hf]
    exact .inr rfl
  · rw [hf]
    exact .inl (by simpa using List.mem_of_find?_eq_some hf)

/-- Claim C1: on a valid task graph, any requested list of task names
executes each task's body at most once per invocation (the invocation
trace has no duplicates), only tasks in the transitive dependency closure
of the requests are invoked, and every dependency's body is invoked
strictly before its dependent's body. -/
theorem run_memoized_in_dependency_order (ts : List Task) (verbose : Bool)
    (cancelAt : Option Nat) (requests : List String) (hv : validGraph ts = true) :
    (flowResult ts verbose cancelAt requests).2.trace.Nodup ∧
    (∀ n ∈ (flowResult ts verbose cancelAt requests).2.trace, Reachable ts requests n) ∧
    (∀ t ∈ (flowResult ts verbose cancelAt requests).2.trace,
      ∀ d ∈ (findTask ts t).dependencies, (findTask ts d).command.isSome →
        Before (flowResult ts verbose cancelAt requests).2.trace d t) := by
  have hlm := loop_master hv requests (ts.length + 1) initState
    (flowResult ts verbose cancelAt requests).1 (flowResult ts verbose cancelAt requests).2
    (InvOk_init ts) (runFlow_eq hv requests)
  obtain ⟨_, _, hreach, hcore, _⟩ := hlm
  refine ⟨hcore.nd, ?_, hcore.ord⟩
  intro n hn
  rcases hreach n hn with hn1 | hn1
  · exact absurd hn1 (by simp [initState])
  · exact hn1

/-- Instance of `run_memoized_in_dependency_order` on a diamond graph with
a request list that repeats a task. -/
theorem run_memoized_in_dependency_order_witness :
    (flowResult
        [⟨"t1", some ⟨.pass, []⟩, [], [], ""⟩, ⟨"t2", some ⟨.pass, []⟩, ["t1"], [], ""⟩,
         ⟨"t3", some ⟨.pass, []⟩, ["t1"], [], ""⟩, ⟨"t4", some ⟨.pass, []⟩, ["t2", "t3"], [], ""⟩]
        false none ["t4", "t4", "t1"]).2.trace.Nodup ∧
    (∀ n ∈ (flowResult
        [⟨"t1", some ⟨.pass, []⟩, [], [], ""⟩, ⟨"t2", some ⟨.pass, []⟩, ["t1"], [], ""⟩,
         ⟨"t3", some ⟨.pass, []⟩, ["t1"], [], ""⟩, ⟨"t4", some ⟨.pass, []⟩, ["t2", "t3"], [], ""⟩]
        false none ["t4", "t4", "t1"]).2.trace,
      Reachable
        [⟨"t1", some ⟨.pass, []⟩, [], [], ""⟩, ⟨"t2", some ⟨.pass, []⟩, ["t1"], [], ""⟩,
         ⟨"t3", some ⟨.pass, []⟩, ["t1"], [], ""⟩, ⟨"t4", some ⟨.pass, []⟩, ["t2", "t3"], [], ""⟩]
        ["t4", "t4", "t1"] n) ∧
    (∀ t ∈ (flowResult
        [⟨"t1", some ⟨.pass, []⟩, [], [], ""⟩, ⟨"t2", some ⟨.pass, []⟩, ["t1"], [], ""⟩,
         ⟨"t3", some ⟨.pass, []⟩, ["t1"], [], ""⟩, ⟨"t4", some ⟨.pass, []⟩, ["t2", "t3"], [], ""⟩]
        false none ["t4", "t4", "t1"]).2.trace,
      ∀ d ∈ (findTask
        [⟨"t1", some ⟨.pass, []⟩, [], [], ""⟩, ⟨"t2", some ⟨.pass, []⟩, ["t1"], [], ""⟩,
         ⟨"t3", some ⟨.pass, []⟩, ["t1"], [], ""⟩, ⟨"t4", some ⟨.pass, []⟩, ["t2", "t3"], [], ""⟩] t).dependencies,
        (findTask
          [⟨"t1", some ⟨.pass, []⟩, [], [], ""⟩, ⟨"t2", some ⟨.pass, []⟩, ["t1"], [], ""⟩,
           ⟨"t3", some ⟨.pass, []⟩, ["t1"], [], ""⟩, ⟨"t4", some ⟨.pass, []⟩, ["t2", "t3"], [], ""⟩] d).command.isSome →
          Before (flowResult
            [⟨"t1", some ⟨.pass, []⟩, [], [], ""⟩, ⟨"t2", some ⟨.pass, []⟩, ["t1"], [], ""⟩,
             ⟨"t3", some ⟨.pass, []⟩, ["t1"], [], ""⟩, ⟨"t4", some ⟨.pass, []⟩, ["t2", "t3"], [], ""⟩]
            false none ["t4", "t4", "t1"]).2.trace d t) :=
  run_memoized_in_dependency_order
    [⟨"t1", some ⟨.pass, []⟩, [], [], ""⟩, ⟨"t2", some ⟨.pass, []⟩, ["t1"], [], ""⟩,
     ⟨"t3", some ⟨.pass, []⟩, ["t1"], [], ""⟩, ⟨"t4", some ⟨.pass, []⟩, ["t2", "t3"], [], ""⟩]
    false none ["t4", "t4", "t1"] (by decide)

/-- Claim C2: without cancellation, if an invoked task's body failed, then
it is the last body invoked in the whole run (no sibling or later request
is attempted), no task depending on it directly or transitively is
invoked, and the run prints the error line and returns status code 1. -/
theorem run_failure_halts (ts : List Task) (verbose : Bool) (requests : List String)
    (n : String) (hv : validGraph ts = true)
    (hn : n ∈ (flowResult ts verbose none requests).2.trace)
    (hfail : ((findTask ts n).command.map Body.result) = some .fail) :
    (flowResult ts verbose none requests).1 = CodeFailure ∧
    (flowResult ts verbose none requests).2.output.getLast? = some "task failed" ∧
    (flowResult ts verbose none requests).2.trace.getLast? = some n ∧
    (∀ m ∈ (flowResult ts verbose none requests).2.trace, ¬DependsOn ts m n) := by
  rcases hcmd : (findTask ts n).command with _ | b
  · rw [hcmd] at hfail
    exact Option.noConfusion hfail
  · rw [hcmd] at hfail
    simp only [Option.map_some', Option.some.injEq] at hfail
    have hlm := loop_master hv requests (ts.length + 1) initState
      (flowResult ts verbose none requests).1 (flowResult ts verbose none requests).2
      (InvOk_init ts) (runFlow_eq hv requests)
    obtain ⟨_, _, _, hcore, hshape⟩ := hlm
    have hnex : n ∉ (flowResult ts verbose none requests).2.executed := by
      intro hc
      exact (hcore.sound n hc b hcmd) hfail
    rcases hshape with ⟨_, _, hte, _⟩ | ⟨hcf, e, hout, hnc, hfailsh⟩
    · exact absurd (hte n hn) hnex
    · have he : e = .taskFailed := hnc rfl
      subst he
      obtain ⟨f, b', hlastf, _, _, _, hcover⟩ := hfailsh rfl
      have hnf : n = f := by
        rcases hcover n hn with hc | hc
        · exact absurd hc hnex
        · exact hc
      refine ⟨hcf, hout, ?_, ?_⟩
      · rw [hnf]
        exact hlastf
      · intro m hm hdep
        exact hnex (DependsOn_executed hcore hm hdep)

/-- Instance of `run_failure_halts` on the three-task chain of the test
suite, with the first task failing. -/
theorem run_failure_halts_witness :
    (flowResult
        [⟨"task-1", some ⟨.fail, ["it still runs"]⟩, [], [], ""⟩,
         ⟨"task-2", some ⟨.pass, []⟩, ["task-1"], [], ""⟩,
         ⟨"task-3", some ⟨.pass, []⟩, ["task-1"], [], ""⟩]
        false none ["task-1", "task-2", "task-3"]).1 = CodeFailure ∧
    (flowResult
        [⟨"task-1", some ⟨.fail, ["it still runs"]⟩, [], [], ""⟩,
         ⟨"task-2", some ⟨.pass, []⟩, ["task-1"], [], ""⟩,
         ⟨"task-3", some ⟨.pass, []⟩, ["task-1"], [], ""⟩]
        false none ["task-1", "task-2", "task-3"]).2.output.getLast? = some "task failed" ∧
    (flowResult
        [⟨"task-1", some ⟨.fail, ["it still runs"]⟩, [], [], ""⟩,
         ⟨"task-2", some ⟨.pass, []⟩, ["task-1"], [], ""⟩,
         ⟨"task-3", some ⟨.pass, []⟩, ["task-1"], [], ""⟩]
        false none ["task-1", "task-2", "task-3"]).2.trace.getLast? = some "task-1" ∧
    (∀ m ∈ (flowResult
        [⟨"task-1", some ⟨.fail, ["it still runs"]⟩, [], [], ""⟩,
         ⟨"task-2", some ⟨.pass, []⟩, ["task-1"], [], ""⟩,
         ⟨"task-3", some ⟨.pass, []⟩, ["task-1"], [], ""⟩]
        false none ["task-1", "task-2", "task-3"]).2.trace,
      ¬DependsOn
        [⟨"task-1", some ⟨.fail, ["it still runs"]⟩, [], [], ""⟩,
         ⟨"task-2", some ⟨.pass, []⟩, ["task-1"], [], ""⟩,
         ⟨"task-3", some ⟨.pass, []⟩, ["task-1"], [], ""⟩] m "task-1") :=
  run_failure_halts
    [⟨"task-1", some ⟨.fail, ["it still runs"]⟩, [], [], ""⟩,
     ⟨"task-2", some ⟨.pass, []⟩, ["task-1"], [], ""⟩,
     ⟨"task-3", some ⟨.pass, []⟩, ["task-1"], [], ""⟩]
    false ["task-1", "task-2", "task-3"] "task-1" (by decide) (by decide) (by decide)

/-- Claim C10: a skipping body is treated as success: in a run where no
registered task's body fails, the run returns status code 0 and prints the
"ok" line, every task in the dependency closure of the requests (skipping
ones included) is marked executed, and every closure task that has a body
(dependents of skipped tasks included) has its body invoked. -/
theorem run_skip_is_success (ts : List Task) (verbose : Bool) (requests : List String)
    (hv : validGraph ts = true)
    (hnofail : ∀ t ∈ ts, (t.command.map Body.result) ≠ some .fail) :
    (flowResult ts verbose none requests).1 = CodePass ∧
    (flowResult ts verbose none requests).2.output.getLast? = some "ok" ∧
    (∀ x, Reachable ts requests x →
      x ∈ (flowResult ts verbose none requests).2.executed ∧
      ((findTask ts x).command.isSome → x ∈ (flowResult ts verbose none requests).2.trace)) := by
  have hlm := loop_master hv requests (ts.length + 1) initState
    (flowResult ts verbose none requests).1 (flowResult ts verbose none requests).2
    (InvOk_init ts) (runFlow_eq hv requests)
  obtain ⟨_, _, _, hcore, hshape⟩ := hlm
  rcases hshape with ⟨hc, hok, _, hcl⟩ | ⟨_, e, _, hnc, hfailsh⟩
  · refine ⟨hc, hok, ?_⟩
    intro x hx
    obtain ⟨r, hr, hrx⟩ := Reachable_of_list hx
    have hxe := hcl r hr x hrx
    exact ⟨hxe, fun hb => hcore.e2t x hxe hb⟩
  · exfalso
    have he : e = .taskFailed := hnc rfl
    subst he
    obtain ⟨f, b, _, hcmdf, hresf, _, _⟩ := hfailsh rfl
    rcases findTask_mem_or_zero ts f with hmem | hzero
    · have := hnofail _ hmem
      rw [hcmdf] at this
      simp [hresf] at this
    · rw [hzero] at hcmdf
      exact Option.noConfusion hcmdf

/-- Instance of `run_skip_is_success` on the chain of the verbose example:
the middle task skips and its dependent still runs; the run passes. -/
theorem run_skip_is_success_witness :
    (flowResult
        [⟨"task-1", some ⟨.pass, ["one"]⟩, [], [], ""⟩,
         ⟨"task-2", some ⟨.skip, ["two"]⟩, ["task-1"], [], ""⟩,
         ⟨"task-3", some ⟨.pass, []⟩, ["task-2"], [], ""⟩]
        false none ["task-3"]).1 = CodePass ∧
    (flowResult
        [⟨"task-1", some ⟨.pass, ["one"]⟩, [], [], ""⟩,
         ⟨"task-2", some ⟨.skip, ["two"]⟩, ["task-1"], [], ""⟩,
         ⟨"task-3", some ⟨.pass, []⟩, ["task-2"], [], ""⟩]
        false none ["task-3"]).2.output.getLast? = some "ok" ∧
    (∀ x, Reachable
        [⟨"task-1", some ⟨.pass, ["one"]⟩, [], [], ""⟩,
         ⟨"task-2", some ⟨.skip, ["two"]⟩, ["task-1"], [], ""⟩,
         ⟨"task-3", some ⟨.pass, []⟩, ["task-2"], [], ""⟩] ["task-3"] x →
      x ∈ (flowResult
        [⟨"task-1", some ⟨.pass, ["one"]⟩, [], [], ""⟩,
         ⟨"task-2", some ⟨.skip, ["two"]⟩, ["task-1"], [], ""⟩,
         ⟨"task-3", some ⟨.pass, []⟩, ["task-2"], [], ""⟩]
        false none ["task-3"]).2.executed ∧
      ((findTask
        [⟨"task-1", some ⟨.pass, ["one"]⟩, [], [], ""⟩,
         ⟨"task-2", some ⟨.skip, ["two"]⟩, ["task-1"], [], ""⟩,
         ⟨"task-3", some ⟨.pass, []⟩, ["task-2"], [], ""⟩] x).command.isSome →
        x ∈ (flowResult
          [⟨"task-1", some ⟨.pass, ["one"]⟩, [], [], ""⟩,
           ⟨"task-2", some ⟨.skip, ["two"]⟩, ["task-1"], [], ""⟩,
           ⟨"task-3", some ⟨.pass, []⟩, ["task-2"], [], ""⟩]
          false none ["task-3"]).2.trace)) :=
  run_skip_is_success
    [⟨"task-1", some ⟨.pass, ["one"]⟩, [], [], ""⟩,
     ⟨"task-2", some ⟨.skip, ["two"]⟩, ["task-1"], [], ""⟩,
     ⟨"task-3", some ⟨.pass, []⟩, ["task-2"], [], ""⟩]
    false ["task-3"] (by decide) (by decide)

/-- Claim C8: with a cancellation signal firing after `k` completed task
bodies, no further task body is ever started (at most `k` bodies run in
total), and if the signal fired during the run — the clock reached `k` —
the run returns the failure status code after printing the cancellation
error, and the task during which the signal fired is not marked as
executed. -/
theorem run_cancellation (ts : List Task) (verbose : Bool) (requests : List String)
    (k : Nat) (hv : validGraph ts = true) (hreq : requests ≠ []) :
    (flowResult ts verbose (some k) requests).2.trace.length ≤ k ∧
    ((flowResult ts verbose (some k) requests).2.trace.length = k →
      (flowResult ts verbose (some k) requests).1 = CodeFailure ∧
      (flowResult ts verbose (some k) requests).2.output.getLast? = some "context canceled" ∧
      (∀ n, (flowResult ts verbose (some k) requests).2.trace.getLast? = some n →
        n ∉ (flowResult ts verbose (some k) requests).2.executed)) := by
  have heq := @runFlow_eq ts verbose (some k) hv requests
  by_cases hk : 0 < k
  · exact loop_cancel hv requests (ts.length + 1) initState
      (flowResult ts verbose (some k) requests).1 (flowResult ts verbose (some k) requests).2
      (InvOk_init ts) (by simpa [initState] using hk) heq
  · have hk0 : k = 0 := by omega
    subst hk0
    obtain ⟨r, rest, rfl⟩ := List.exists_cons_of_ne_nil hreq
    unfold runFlow at heq
    rw [runTasksLoop_cons] at heq
    rcases h1 : runT ts verbose (some 0) (ts.length + 1) r initState with _ | ⟨s1, e1⟩
    · rw [h1] at heq
      exact Option.noConfusion heq
    · rw [h1] at heq
      have hfired : ctxFired (some 0) initState.trace.length = true := by
        simp [ctxFired, initState]
      have hf := ((@runT_fired ts verbose 0 (ts.length + 1)).1) r initState s1 e1 hfired h1
      rcases hf.2 with hc | hc
      · subst hc
        dsimp only at heq
        rw [hf.1] at heq
        simp only [Option.some.injEq] at heq
        rw [← heq]
        refine ⟨by simp [initState], fun _ => ⟨rfl, by simp [initState, errMsg], ?_⟩⟩
        intro n hn
        simp [initState] at hn
      · exact absurd hc.2 (by simp [initState])

/-- Instance of `run_cancellation`: a two-request run on a three-task
registry with the signal firing after the first body completes. -/
theorem run_cancellation_witness :
    (flowResult
        [⟨"task-1", some ⟨.pass, ["one"]⟩, [], [], ""⟩,
         ⟨"task-2", some ⟨.pass, []⟩, ["task-1"], [], ""⟩,
         ⟨"task-3", some ⟨.pass, []⟩, ["task-1"], [], ""⟩]
        false (some 1) ["task-2", "task-3"]).2.trace.length ≤ 1 ∧
    ((flowResult
        [⟨"task-1", some ⟨.pass, ["one"]⟩, [], [], ""⟩,
         ⟨"task-2", some ⟨.pass, []⟩, ["task-1"], [], ""⟩,
         ⟨"task-3", some ⟨.pass, []⟩, ["task-1"], [], ""⟩]
        false (some 1) ["task-2", "task-3"]).2.trace.length = 1 →
      (flowResult
        [⟨"task-1", some ⟨.pass, ["one"]⟩, [], [], ""⟩,
         ⟨"task-2", some ⟨.pass, []⟩, ["task-1"], [], ""⟩,
         ⟨"task-3", some ⟨.pass, []⟩, ["task-1"], [], ""⟩]
        false (some 1) ["task-2", "task-3"]).1 = CodeFailure ∧
      (flowResult
        [⟨"task-1", some ⟨.pass, ["one"]⟩, [], [], ""⟩,
         ⟨"task-2", some ⟨.pass, []⟩, ["task-1"], [], ""⟩,
         ⟨"task-3", some ⟨.pass, []⟩, ["task-1"], [], ""⟩]
        false (some 1) ["task-2", "task-3"]).2.output.getLast? = some "context canceled" ∧
      (∀ n, (flowResult
        [⟨"task-1", some ⟨.pass, ["one"]⟩, [], [], ""⟩,
         ⟨"task-2", some ⟨.pass, []⟩, ["task-1"], [], ""⟩,
         ⟨"task-3", some ⟨.pass, []⟩, ["task-1"], [], ""⟩]
        false (some 1) ["task-2", "task-3"]).2.trace.getLast? = some n →
        n ∉ (flowResult
          [⟨"task-1", some ⟨.pass, ["one"]⟩, [], [], ""⟩,
           ⟨"task-2", some ⟨.pass, []⟩, ["task-1"], [], ""⟩,
           ⟨"task-3", some ⟨.pass, []⟩, ["task-1"], [], ""⟩]
          false (some 1) ["task-2", "task-3"]).2.executed)) :=
  run_cancellation
    [⟨"task-1", some ⟨.pass, ["one"]⟩, [], [], ""⟩,
     ⟨"task-2", some ⟨.pass, []⟩, ["task-1"], [], ""⟩,
     ⟨"task-3", some ⟨.pass, []⟩, ["task-1"], [], ""⟩]
    false ["task-2", "task-3"] 1 (by decide) (by decide)

end Taskflow
